import Mathlib

/-!
# Verification of the maek build engine

A shallow embedding of the core of the maek build engine (src/src/maek.ts and
the jobs module) together with proofs of the specified properties.

Modelling conventions used throughout:

* JavaScript strings are Lean String / List Char; the ASCII fragment of the
  \s character class is modelled by isWs (the dependency files produced by
  the C++ compiler are ASCII).
* Asynchronous execution is sequentialized: in the engine, the check of
  task.pending, the stamping of task.src and the start of the task body all
  happen inside one synchronous segment of updateTargets (no await occurs
  between them), so launching a task is modelled as an atomic step that
  marks the task pending and then runs its body to completion.  This is
  faithful for acyclic task graphs, the only graphs on which the engine
  terminates.
* External effects (file contents, hash digests, success of recipe
  commands) are oracle parameters of the model.
* Fuel-indexed recursion replaces general recursion; a result of none
  means the fuel was exhausted, and theorems are conditional on a some
  result.
-/

/-! ## Dynamic dependency parsing: loadDeps (src/src/maek.ts lines 177-202) -/

/-- ASCII whitespace as matched by the JavaScript regex class \s and by
String.prototype.trim (restricted to the ASCII range). -/
def isWs (c : Char) : Bool :=
  c = ' ' || c = '\t' || c = '\n' || c = '\r' || c = '\x0b' || c = '\x0c'

/-- First replace of loadDeps: text.replace of the global pattern
(backslash?)newline with a space.  The regex engine scans left to right,
non-overlapping: at each position an escaped newline (backslash newline)
or a bare newline is turned into a single space. -/
def joinNewlines : List Char → List Char
  | [] => []
  | '\\' :: '\n' :: rest => ' ' :: joinNewlines rest
  | '\n' :: rest => ' ' :: joinNewlines rest
  | c :: rest => c :: joinNewlines rest

/-- String.prototype.trim: drop leading and trailing whitespace. -/
def trimWs (l : List Char) : List Char :=
  ((l.dropWhile isWs).reverse.dropWhile isWs).reverse

/-- Second replace of loadDeps, fuel-indexed (structural recursion on the
fuel, so that concrete inputs evaluate inside the kernel): the global
pattern (a char that is not a backslash)(a run of whitespace), replaced
by the captured char followed by a single newline.  Left to right and
non-overlapping: after a match the scan resumes after the consumed run.
A fuel of at least the length of the list never reaches the fuel-zero
fallback. -/
def wsRunsF : Nat → List Char → List Char
  | 0, l => l
  | _ + 1, [] => []
  | _ + 1, [c] => [c]
  | n + 1, c :: d :: rest =>
    if c != '\\' && isWs d then c :: '\n' :: wsRunsF n (rest.dropWhile isWs)
    else c :: wsRunsF n (d :: rest)

/-- Second replace of loadDeps at adequate fuel. -/
def wsRuns (l : List Char) : List Char := wsRunsF l.length l

/-- JavaScript String.prototype.split with separator newline. -/
def splitNl : List Char → List (List Char)
  | [] => [[]]
  | c :: rest =>
    let r := splitNl rest
    if c = '\n' then [] :: r
    else (c :: r.headD []) :: r.tail

/-- Spec-side tokenizer (follows the words of the claim): split a text
with no newlines into the tokens separated by runs of unescaped
whitespace.  A whitespace char whose immediate predecessor is a backslash
is escaped and stays inside its token; an unescaped whitespace char ends
the current token and the whole whitespace run it starts is consumed as
one separator.  Fuel-indexed like wsRunsF; the fuel-zero fallback is
never reached from tokSpec. -/
def tokSpecF : Nat → List Char → List (List Char)
  | 0, l => splitNl l
  | _ + 1, [] => [[]]
  | _ + 1, [c] => [[c]]
  | n + 1, c :: d :: rest =>
    if c != '\\' && isWs d then [c] :: tokSpecF n (rest.dropWhile isWs)
    else
      let r := tokSpecF n (d :: rest)
      (c :: r.headD []) :: r.tail

/-- The spec-side tokenizer at adequate fuel. -/
def tokSpec (l : List Char) : List (List Char) := tokSpecF l.length l

/-- Lexicographic comparison of strings by code point, modelling the
default JavaScript Array.prototype.sort comparator (identical on the
basic multilingual plane, which covers the paths that appear in
dependency files). -/
def lexLe : List Char → List Char → Bool
  | [], _ => true
  | _ :: _, [] => false
  | a :: as, b :: bs => if a < b then true else if b < a then false else lexLe as bs

/-- The ordering used to sort dependency tokens. -/
def tokenLe (a b : String) : Prop := lexLe a.toList b.toList = true

instance : DecidableRel tokenLe := fun a b => by
  unfold tokenLe
  infer_instance

/-- loadDeps (src/src/maek.ts lines 177-202).  contents is the text of the
deps file, or none when reading it failed; explicit is the inDepends set
(the explicit dependencies of the CPP rule).  The two console.assert
calls in the source only log; the code unconditionally drops the first
two tokens. -/
def loadDeps (explicit : List String) (contents : Option String) : List String :=
  match contents with
  | none => []
  | some text =>
    let toks := (splitNl (wsRuns (trimWs (joinNewlines text.toList)))).map
      (fun l => String.mk l)
    let toks := toks.drop 2
    let toks := toks.insertionSort tokenLe
    toks.filter (fun t => !(explicit.contains t))

theorem nl_not_mem_joinNewlines : ∀ l : List Char, '\n' ∉ joinNewlines l := by
  intro l
  induction l using joinNewlines.induct with
  | case1 => simp [joinNewlines]
  | case2 rest ih => simpa [joinNewlines] using ih
  | case3 rest ih => simpa [joinNewlines] using ih
  | case4 c rest h1 h2 ih =>
    simp only [joinNewlines, List.mem_cons]
    rintro (h | h)
    · exact h2 h.symm
    · exact ih h

theorem mem_trimWs {x : Char} {l : List Char} (h : x ∈ trimWs l) : x ∈ l := by
  unfold trimWs at h
  rw [List.mem_reverse] at h
  have h1 := (List.dropWhile_sublist (l := (l.dropWhile isWs).reverse) isWs).mem h
  rw [List.mem_reverse] at h1
  exact (List.dropWhile_sublist (l := l) isWs).mem h1

theorem splitNl_wsRunsF :
    ∀ (n : Nat) (l : List Char), '\n' ∉ l → splitNl (wsRunsF n l) = tokSpecF n l := by
  intro n
  induction n with
  | zero => intro l _; rfl
  | succ n ih =>
    intro l hl
    match l with
    | [] => rfl
    | [c] =>
      have hc : ¬ (c = '\n') := by
        intro h; exact hl (by simp [h])
      simp [wsRunsF, tokSpecF, splitNl, hc]
    | c :: d :: rest =>
      have hc : ¬ (c = '\n') := by
        intro h; exact hl (by simp [h])
      by_cases hb : (c != '\\' && isWs d) = true
      · have hsub : '\n' ∉ rest.dropWhile isWs := by
          intro hm
          exact hl (by
            simp only [List.mem_cons]
            exact Or.inr (Or.inr ((List.dropWhile_sublist isWs).mem hm)))
        simp only [wsRunsF, tokSpecF, hb, if_true]
        simp only [splitNl, hc, if_false, if_true, ite_true, ite_false]
        rw [ih _ hsub]
        simp
      · have hsub : '\n' ∉ d :: rest := by
          intro hm; exact hl (List.mem_cons_of_mem _ hm)
        simp only [wsRunsF, tokSpecF, hb, if_false]
        simp only [splitNl, hc, ite_false]
        rw [ih _ hsub]
        simp

theorem splitNl_wsRuns {l : List Char} (h : '\n' ∉ l) : splitNl (wsRuns l) = tokSpec l :=
  splitNl_wsRunsF l.length l h

theorem lexLe_cons {a b : Char} {as bs : List Char} :
    lexLe (a :: as) (b :: bs) = true ↔ a < b ∨ (a = b ∧ lexLe as bs = true) := by
  simp only [lexLe]
  rcases lt_trichotomy a b with h | h | h
  · simp [h]
  · simp [h, lt_irrefl]
  · simp [lt_asymm h, h, ne_of_gt h]

theorem lexLe_total : ∀ (x y : List Char), lexLe x y = true ∨ lexLe y x = true
  | [], _ => Or.inl rfl
  | _ :: _, [] => Or.inr rfl
  | a :: as, b :: bs => by
    rw [lexLe_cons, lexLe_cons]
    rcases lt_trichotomy a b with h | h | h
    · exact Or.inl (Or.inl h)
    · rcases lexLe_total as bs with h2 | h2
      · exact Or.inl (Or.inr ⟨h, h2⟩)
      · exact Or.inr (Or.inr ⟨h.symm, h2⟩)
    · exact Or.inr (Or.inl h)

theorem lexLe_trans :
    ∀ (x y z : List Char), lexLe x y = true → lexLe y z = true → lexLe x z = true
  | [], _, _ => fun _ _ => rfl
  | _ :: _, [], _ => by simp [lexLe]
  | _ :: _, _ :: _, [] => by simp [lexLe]
  | a :: as, b :: bs, c :: cs => by
    rw [lexLe_cons, lexLe_cons, lexLe_cons]
    rintro (hab | ⟨hab, hr⟩) (hbc | ⟨hbc, hr2⟩)
    · exact Or.inl (lt_trans hab hbc)
    · exact Or.inl (hbc ▸ hab)
    · exact Or.inl (hab ▸ hbc)
    · exact Or.inr ⟨hab.trans hbc, lexLe_trans as bs cs hr hr2⟩

instance : IsTotal String tokenLe := ⟨fun a b => lexLe_total a.toList b.toList⟩

instance : IsTrans String tokenLe :=
  ⟨fun a b c => lexLe_trans a.toList b.toList c.toList⟩

/-- C6: loadDeps returns the empty list when the deps file cannot be read;
otherwise it joins escaped or bare newlines into spaces, splits the
trimmed text on runs of unescaped whitespace, drops the first two tokens,
sorts the remaining tokens, and returns exactly those sorted tokens that
do not appear in the explicit-depends set. -/
theorem claim_C6_loadDeps :
    (∀ explicit, loadDeps explicit none = []) ∧
    (∀ explicit text,
      loadDeps explicit (some text) =
        ((((tokSpec (trimWs (joinNewlines text.toList))).map
              (fun l => String.mk l)).drop 2).insertionSort tokenLe).filter
          (fun t => !(explicit.contains t))) ∧
    (∀ explicit contents, (loadDeps explicit contents).Sorted tokenLe) ∧
    (∀ explicit contents t, t ∈ loadDeps explicit contents → t ∉ explicit) := by
  refine ⟨fun _ => rfl, ?_, ?_, ?_⟩
  · intro explicit text
    simp only [loadDeps, wsRuns, tokSpec]
    rw [splitNl_wsRunsF]
    intro hm
    exact absurd (mem_trimWs hm) (nl_not_mem_joinNewlines _)
  · intro explicit contents
    match contents with
    | none => simp [loadDeps]
    | some text =>
      exact (List.sorted_insertionSort tokenLe _).filter _
  · intro explicit contents t ht
    match contents with
    | none => simp [loadDeps] at ht
    | some text =>
      unfold loadDeps at ht
      rw [List.mem_filter] at ht
      have := ht.2
      simp at this
      exact this

theorem claim_C6_loadDeps_witness :
    "a.hpp" ∈ loadDeps ["game.cpp"] (some "x : game.cpp b.hpp a.hpp") ∧
    "a.hpp" ∉ ["game.cpp"] :=
  ⟨by decide,
    claim_C6_loadDeps.2.2.2 ["game.cpp"] (some "x : game.cpp b.hpp a.hpp") "a.hpp"
      (by decide)⟩

/-! ## assertNontargets (src/src/maek.ts lines 445-455) -/

/-- Array.prototype.join with a separator. -/
def joinSep (sep : String) : List String → String
  | [] => ""
  | [a] => a
  | a :: b :: rest => a ++ sep ++ joinSep sep (b :: rest)

/-- assertNontargets (src/src/maek.ts lines 445-455): registry is the
list of registered targets (Object.keys of this.tasks); the result is
the message of the BuildError raised, or none when no prerequisite is a
registered target.  The ruleName argument is accepted, as in the source,
where the message never uses it. -/
def assertNontargets (registry : List String) (prerequisites : List String)
    (ruleName : String) : Option String :=
  let errorFiles := prerequisites.filter (fun t => registry.contains t)
  if errorFiles.isEmpty then none
  else
    some ("the following *generated* files are required but not mentioned as dependancies:\n  "
      ++ joinSep "\n  " errorFiles)

theorem toList_append (s t : String) : (s ++ t).toList = s.toList ++ t.toList := by
  simp [String.toList]

theorem mem_infix_joinSep (sep : String) :
    ∀ (l : List String) (f : String), f ∈ l → f.toList <:+: (joinSep sep l).toList := by
  intro l
  induction l with
  | nil => intro f hf; simp at hf
  | cons a rest ih =>
    intro f hf
    match rest with
    | [] =>
      simp at hf
      subst hf
      exact List.infix_refl _
    | b :: rest2 =>
      rcases List.mem_cons.mp hf with h | h
      · subst h
        show f.toList <:+: (f ++ sep ++ joinSep sep (b :: rest2)).toList
        rw [toList_append, toList_append]
        exact ((List.prefix_append _ _).trans (List.prefix_append _ _)).isInfix
      · have := ih f h
        show f.toList <:+: (a ++ sep ++ joinSep sep (b :: rest2)).toList
        rw [toList_append]
        exact this.trans (List.suffix_append _ _).isInfix

set_option maxRecDepth 80000 in
/-- C7 counterexample: at a concrete input (registry containing the
generated header gen.hpp, which is also a discovered extra dependency,
rule named "CPP objs/game.o"), the raised BuildError message lists the
offending file but does not contain the rule name anywhere: the claim
that the message names the rule is false (assertNontargets receives the
rule name but never uses it). -/
theorem claim_C7_counterexample :
    assertNontargets ["gen.hpp"] ["gen.hpp"] "CPP objs/game.o" =
      some "the following *generated* files are required but not mentioned as dependancies:\n  gen.hpp" ∧
    ¬ ("CPP objs/game.o".toList <:+:
      ("the following *generated* files are required but not mentioned as dependancies:\n  gen.hpp").toList) :=
  ⟨by decide, by decide⟩

/-- C7 (amended): if any dynamically discovered extra dependency of a CPP
task is itself a registered target, the task fails with a BuildError
whose message lists every offending generated file path; the rule name is
passed to the check but does not appear in the message (the failing rule
is instead named by the scheduler's failure log line). -/
theorem claim_C7_assertNontargets :
    ∀ registry prerequisites ruleName,
      (assertNontargets registry prerequisites ruleName = none ↔
        ∀ f ∈ prerequisites, f ∉ registry) ∧
      (∀ m, assertNontargets registry prerequisites ruleName = some m →
        ∀ f ∈ prerequisites, f ∈ registry → f.toList <:+: m.toList) := by
  intro registry prerequisites ruleName
  have hchar : ∀ f, f ∈ prerequisites.filter (fun t => registry.contains t) ↔
      (f ∈ prerequisites ∧ f ∈ registry) := by
    intro f
    rw [List.mem_filter]
    simp
  constructor
  · constructor
    · intro h f hf hr
      unfold assertNontargets at h
      by_cases he : (prerequisites.filter (fun t => registry.contains t)).isEmpty = true
      · have hm := (hchar f).mpr ⟨hf, hr⟩
        rw [List.isEmpty_iff] at he
        rw [he] at hm
        simp at hm
      · rw [if_neg he] at h
        simp at h
    · intro h
      unfold assertNontargets
      have hnil : prerequisites.filter (fun t => registry.contains t) = [] := by
        apply List.eq_nil_iff_forall_not_mem.mpr
        intro f hf
        rcases (hchar f).mp hf with ⟨h1, h2⟩
        exact h f h1 h2
      rw [hnil]
      rfl
  · intro m hm f hf hr
    unfold assertNontargets at hm
    have hmem := (hchar f).mpr ⟨hf, hr⟩
    have hne : ¬ ((prerequisites.filter (fun t => registry.contains t)).isEmpty = true) := by
      intro hE
      rw [List.isEmpty_iff] at hE
      rw [hE] at hmem
      simp at hmem
    rw [if_neg hne, Option.some_inj] at hm
    subst hm
    rw [toList_append]
    exact (mem_infix_joinSep _ _ f hmem).trans (List.suffix_append _ _).isInfix

/-- Witness for the amended C7 at a concrete input. -/
theorem claim_C7_assertNontargets_witness :
    "gen.hpp".toList <:+:
      ("the following *generated* files are required but not mentioned as dependancies:\n  gen.hpp").toList :=
  (claim_C7_assertNontargets ["gen.hpp"] ["gen.hpp"] "R").2
    "the following *generated* files are required but not mentioned as dependancies:\n  gen.hpp"
    (by decide) "gen.hpp" (by decide) (by decide)

/-! ## hashFiles (src/src/maek.ts lines 347-379) -/

/-- The source check target[0] !== ':' (for the empty string, target[0]
is undefined in JavaScript, so the check is false for abstractness). -/
def isAbstract (t : String) : Bool :=
  match t.toList with
  | ':' :: _ => true
  | _ => false

/-- One hashFiles entry for a single readable check of a file: the path,
a colon separator, and the digest of the file's full content; the
placeholder path:x when the file cannot be read.  digest abstracts the
base64-encoded MD5 of a byte content (computed by the external crypto
library); fsContent abstracts the filesystem, giving the byte content of
a readable file and none when reading fails. -/
def hashEntry (digest : List Nat → String) (fsContent : String → Option (List Nat))
    (file : String) : String :=
  match fsContent file with
  | none => file ++ ":x"
  | some data => file ++ ":" ++ digest data

/-- Lookup in the in-process hash cache (a property access on the
this.hashCache object). -/
def cacheLookup : List (String × String) → String → Option String
  | [], _ => none
  | (k, v) :: rest, f => if k = f then some v else cacheLookup rest f

theorem of_cacheLookup_eq_some :
    ∀ (cache : List (String × String)) (f h : String),
      cacheLookup cache f = some h → (f, h) ∈ cache := by
  intro cache
  induction cache with
  | nil => intro f h hl; simp [cacheLookup] at hl
  | cons p rest ih =>
    intro f h hl
    obtain ⟨k, v⟩ := p
    simp only [cacheLookup] at hl
    by_cases hk : k = f
    · rw [if_pos hk] at hl
      cases hl
      subst hk
      exact List.mem_cons_self _ _
    · rw [if_neg hk] at hl
      exact List.mem_cons_of_mem _ (ih f h hl)

/-- The hashFile helper of hashFiles with the in-process hash cache
(this.hashCache) threaded through: a cached entry is returned as is,
otherwise the entry is computed and stored. -/
def hashFile (digest : List Nat → String) (fsContent : String → Option (List Nat))
    (cache : List (String × String)) (file : String) :
    String × List (String × String) :=
  match cacheLookup cache file with
  | some h => (h, cache)
  | none =>
    let h := hashEntry digest fsContent file
    (h, (file, h) :: cache)

/-- The mapping loop of hashFiles, in input order. -/
def hashFilesGo (digest : List Nat → String) (fsContent : String → Option (List Nat)) :
    List (String × String) → List String → List String × List (String × String)
  | cache, [] => ([], cache)
  | cache, f :: rest =>
    let p := hashFile digest fsContent cache f
    let q := hashFilesGo digest fsContent p.2 rest
    (p.1 :: q.1, q.2)

/-- hashFiles (src/src/maek.ts lines 347-379): drop abstract targets,
then produce one entry per remaining target in input order. -/
def hashFiles (digest : List Nat → String) (fsContent : String → Option (List Nat))
    (cache : List (String × String)) (targets : List String) :
    List String × List (String × String) :=
  hashFilesGo digest fsContent cache (targets.filter (fun t => !(isAbstract t)))

theorem hashFilesGo_fst (digest : List Nat → String)
    (fsContent : String → Option (List Nat)) :
    ∀ (files : List String) (cache : List (String × String)),
      (∀ f h, (f, h) ∈ cache → h = hashEntry digest fsContent f) →
      (hashFilesGo digest fsContent cache files).1 = files.map (hashEntry digest fsContent) := by
  intro files
  induction files with
  | nil => intro cache _; rfl
  | cons f rest ih =>
    intro cache hc
    simp only [hashFilesGo, List.map_cons]
    unfold hashFile
    cases hl : cacheLookup cache f with
    | some h =>
      have hmem : (f, h) ∈ cache := of_cacheLookup_eq_some cache f h hl
      have := hc f h hmem
      simp only [this]
      rw [ih cache hc]
    | none =>
      simp only
      rw [ih _ ?_]
      intro g h hm
      rcases List.mem_cons.mp hm with h1 | h1
      · cases h1
        rfl
      · exact hc g h h1

/-- C8: hashFiles(targets) returns one entry per non-abstract target, in
input order, where each entry is the file path, a colon separator, and
the digest (the base64-encoded MD5, abstracted as the digest parameter)
of the file's full content; a file that cannot be read yields the
placeholder entry path:x; abstract targets are skipped entirely and
contribute no entry.  The hypothesis states that the entries already in
the in-process hash cache agree with the current digests (the cache
starts empty and tasks delete an entry before rewriting its file). -/
theorem claim_C8_hashFiles :
    ∀ (digest : List Nat → String) (fsContent : String → Option (List Nat))
      (cache : List (String × String)) (targets : List String),
      (∀ f h, (f, h) ∈ cache → h = hashEntry digest fsContent f) →
      (hashFiles digest fsContent cache targets).1 =
        (targets.filter (fun t => !(isAbstract t))).map (hashEntry digest fsContent) ∧
      (∀ f data, fsContent f = some data →
        hashEntry digest fsContent f = f ++ ":" ++ digest data) ∧
      (∀ f, fsContent f = none → hashEntry digest fsContent f = f ++ ":x") := by
  intro digest fsContent cache targets hc
  refine ⟨hashFilesGo_fst digest fsContent _ cache hc, ?_, ?_⟩
  · intro f data h
    unfold hashEntry
    rw [h]
  · intro f h
    unfold hashEntry
    rw [h]

theorem claim_C8_hashFiles_witness :
    (hashFiles (fun _ => "h") (fun f => if f = "a.o" then some [1, 2] else none)
      [] [":t", "a.o", "missing"]).1 = ["a.o:h", "missing:x"] :=
  ((claim_C8_hashFiles (fun _ => "h") (fun f => if f = "a.o" then some [1, 2] else none)
      [] [":t", "a.o", "missing"] (by simp)).1).trans (by decide)

/-! ## The job pool (jobs module: JOBS and job) -/

/-- JOBS (jobs module): os.cpus().length + 1. -/
def JOBS (ncpu : Nat) : Nat := ncpu + 1

/-- State of the job pool module together with the relevant part of the
node event loop.  Jobs are identified by their submission index.
active and pending are the module-level counter and FIFO queue; ticks
counts the queued process.nextTick(schedule) callbacks; running holds
the jobs whose jobFn is currently executing; started and submitted are
history variables recording starts and submissions in order. -/
structure PoolState where
  active : Nat
  pending : List Nat
  ticks : Nat
  running : List Nat
  started : List Nat
  submitted : List Nat
deriving DecidableEq

def initPool : PoolState := ⟨0, [], 0, [], [], []⟩

/-- The successor state of a call to job(f): a schedule callback is
queued with process.nextTick and the new job is pushed onto the pending
queue.  Nothing starts executing during submission itself. -/
def submitNext (s : PoolState) : PoolState :=
  { s with submitted := s.submitted ++ [s.submitted.length],
           pending := s.pending ++ [s.submitted.length],
           ticks := s.ticks + 1 }

/-- One event of the job pool.  dispatch is a queued schedule callback
that finds active < JOBS and a nonempty queue: it increments active and
starts the job at the head of the queue (pending.shift).  tickNoop is a
schedule callback whose guard fails; it just leaves the tick queue.
finish is the completion of a running job's jobFn: the schedule
invocation that awaited it decrements active and queues another
schedule callback with process.nextTick. -/
inductive PoolStep (N : Nat) : PoolState → PoolState → Prop
  | submit (s : PoolState) : PoolStep N s (submitNext s)
  | dispatch (s : PoolState) (j : Nat) (rest : List Nat) :
      0 < s.ticks → s.active < N → s.pending = j :: rest →
      PoolStep N s
        { s with ticks := s.ticks - 1, active := s.active + 1,
                 pending := rest, running := s.running ++ [j],
                 started := s.started ++ [j] }
  | tickNoop (s : PoolState) :
      0 < s.ticks → (N ≤ s.active ∨ s.pending = []) →
      PoolStep N s { s with ticks := s.ticks - 1 }
  | finish (s : PoolState) (j : Nat) :
      j ∈ s.running →
      PoolStep N s
        { s with running := s.running.erase j, active := s.active - 1,
                 ticks := s.ticks + 1 }

/-- Reachability of pool states from the initial state. -/
inductive PoolReach (N : Nat) : PoolState → Prop
  | init : PoolReach N initPool
  | step {s s' : PoolState} : PoolReach N s → PoolStep N s s' → PoolReach N s'

/-- The inductive invariant of the job pool. -/
def PoolInv (N : Nat) (s : PoolState) : Prop :=
  s.running.length = s.active ∧ s.active ≤ N ∧
  s.started ++ s.pending = s.submitted ∧
  s.submitted = List.range s.submitted.length ∧
  (∀ j ∈ s.running, j ∈ s.started)

theorem poolInv_of_reach {N : Nat} {s : PoolState} (h : PoolReach N s) : PoolInv N s := by
  induction h with
  | init =>
    refine ⟨rfl, Nat.zero_le _, rfl, rfl, ?_⟩
    intro j hj
    simp [initPool] at hj
  | step hr hs ih =>
    obtain ⟨i1, i2, i3, i4, i5⟩ := ih
    cases hs with
    | submit =>
      refine ⟨i1, i2, ?_, ?_, fun j hj => i5 j hj⟩
      · simp only [submitNext]
        rw [← List.append_assoc, i3]
      · simp only [submitNext, List.length_append, List.length_singleton]
        rw [List.range_succ, ← i4]
    | dispatch j rest ht ha hp =>
      refine ⟨?_, ?_, ?_, i4, ?_⟩
      · simp [i1]
      · simpa using ha
      · simpa [hp] using i3
      · intro k hk
        simp only [List.mem_append] at hk ⊢
        rcases hk with hk | hk
        · exact Or.inl (i5 k hk)
        · exact Or.inr hk
    | tickNoop ht hg => exact ⟨i1, i2, i3, i4, i5⟩
    | finish j hj =>
      refine ⟨?_, ?_, i3, i4, ?_⟩
      · simp only
        rw [List.length_erase_of_mem hj, i1]
      · simp only
        omega
      · intro k hk
        exact i5 k (List.mem_of_mem_erase hk)

/-- C9: the job pool runs at most N = host_cpu_count + 1 submitted
functions concurrently; submissions beyond that bound queue and are
dispatched in FIFO order (the start order is always a prefix of the
submission order, with the still-queued jobs following it); and a
submitted function is never executed synchronously during submission:
submission leaves the running and started sets unchanged and the new
job is not running afterwards, so it can begin only through a later
dispatch event of the scheduler. -/
theorem claim_C9_jobPool :
    ∀ (ncpu : Nat) (s : PoolState), PoolReach (JOBS ncpu) s →
      s.running.length ≤ ncpu + 1 ∧
      s.started ++ s.pending = s.submitted ∧
      (submitNext s).running = s.running ∧
      (submitNext s).started = s.started ∧
      s.submitted.length ∉ (submitNext s).running := by
  intro ncpu s h
  obtain ⟨i1, i2, i3, i4, i5⟩ := poolInv_of_reach h
  refine ⟨by rw [i1]; exact i2, i3, rfl, rfl, ?_⟩
  intro hmem
  have hst := i5 _ hmem
  have key : ∀ j, j ∈ s.started → j ∈ s.submitted := by
    intro j hj
    rw [← i3]
    exact List.mem_append_left _ hj
  have hsub := key _ hst
  have h2 : ∀ x, x ∈ s.submitted → x < s.submitted.length := by
    intro x hx
    rw [i4] at hx
    exact List.mem_range.mp hx
  exact absurd (h2 _ hsub) (lt_irrefl _)


/-- Witness for C9 at the reachable state after one submission. -/
theorem claim_C9_jobPool_witness :
    (submitNext initPool).running.length ≤ 1 + 1 ∧
    (submitNext initPool).started ++ (submitNext initPool).pending =
      (submitNext initPool).submitted :=
  ⟨(claim_C9_jobPool 1 (submitNext initPool)
      (PoolReach.step PoolReach.init (PoolStep.submit initPool))).1,
   (claim_C9_jobPool 1 (submitNext initPool)
      (PoolReach.step PoolReach.init (PoolStep.submit initPool))).2.1⟩

/-! ## The scheduler: updateTargets and update (src/src/maek.ts lines 288-442) -/

/-- The structural part of a task (immutable after the configuration
phase): the prerequisites that its run and keyFn recursively update,
whether a keyFn is defined (hasKey), and the human-readable label. -/
structure MTask where
  prereqs : List String
  hasKey : Bool
  label : String

/-- The task registry of a Maek instance: owner maps each target to the
id of its owning task (this.tasks; possibly many targets to one task),
decl gives the structure of each task, and targetList is
Object.keys(this.tasks). -/
structure Sys where
  owner : String → Option Nat
  decl : Nat → MTask
  targetList : List String

/-- The world oracles: readability of plain files, whether a task's
recipe commands fail with a BuildError (runFails), and the value a
task's keyFn hashes before the task's own run has executed (keyPre) and
after it (keyPost).  Key values are abstracted to naturals: equality of
the JSON.stringify images of two keys is modelled as equality of these
values. -/
structure World where
  fsReadable : String → Bool
  runFails : Nat → Bool
  keyPre : Nat → Nat
  keyPost : Nat → Nat

/-- The scheduler-mutable state of one task: p is the presence of the
pending property, src the debug breadcrumb, failed the failure flag, ck
the cachedKey (none when the property is absent), rc the number of
invocations of run so far and kc the number of invocations of keyFn so
far (rc and kc are instrumentation counters used to state the
at-most-once properties). -/
structure TState where
  p : Bool
  src : Option String
  failed : Bool
  ck : Option Nat
  rc : Nat
  kc : Nat
deriving DecidableEq

/-- The state of all tasks, indexed by task id. -/
abbrev St := Nat → TState

/-- A task that has never been touched by the scheduler. -/
def initT : TState := ⟨false, none, false, none, 0, 0⟩

/-- Pointwise state update. -/
def upd (σ : St) (id : Nat) (v : TState) : St := fun j => if j = id then v else σ j

/-- The BuildError values raised by the scheduler. -/
inductive Err
  | abstractNoTask (t src : String)
  | missingFile (t src : String)
  | lackOf (t : String)
deriving DecidableEq

/-- await Promise.all(pending): the combined future rejects with the
first rejection among the settled outcomes, otherwise resolves. -/
def promiseAll (outs : List (Except Err Unit)) : Except Err Unit :=
  match outs.findSome? (fun o => match o with | .error e => some e | .ok _ => none) with
  | some e => .error e
  | none => .ok ()

/-- The second walk of updateTargets (lines 435-441): raise for lack of
the first requested target whose owning task is marked failed. -/
def walk2 (S : Sys) (targets : List String) (σ : St) : Except Err Unit :=
  match targets.find? (fun t =>
      match S.owner t with
      | some id => (σ id).failed
      | none => false) with
  | some t => .error (.lackOf t)
  | none => .ok ()

mutual

/-- updateTargets (lines 382-442): phase1 walks the requested targets,
launching tasks and collecting the settled outcomes of their futures
(launching is modelled atomically, see the header comment); then all
the futures are awaited together (promiseAll) and, when none rejected,
the requested list is walked a second time looking for failed tasks. -/
def updateTargets (S : Sys) (W : World) :
    Nat → List String → String → St → Option (Except Err Unit × St)
  | 0, _, _, _ => none
  | fuel + 1, targets, src, σ =>
    match phase1 S W fuel targets src σ with
    | none => none
    | some (.error e, σ₁) => some (.error e, σ₁)
    | some (.ok outs, σ₁) =>
      match promiseAll outs with
      | .error e => some (.error e, σ₁)
      | .ok _ => some (walk2 S targets σ₁, σ₁)

/-- The for-loop of updateTargets (lines 384-429): a target with a task
either awaits the existing pending future or launches the task (stamping
src, setting pending, and running the task body); an unknown abstract
target raises immediately, aborting the loop; an unknown plain file is
probed through the fsReadable oracle and a failed probe contributes a
rejected future to the awaited list. -/
def phase1 (S : Sys) (W : World) :
    Nat → List String → String → St → Option (Except Err (List (Except Err Unit)) × St)
  | 0, _, _, _ => none
  | _ + 1, [], _, σ => some (.ok [], σ)
  | fuel + 1, t :: rest, src, σ =>
    match S.owner t with
    | some id =>
      if (σ id).p then
        match phase1 S W fuel rest src σ with
        | none => none
        | some (r, σ₁) => some (r.map (fun outs => .ok () :: outs), σ₁)
      else
        match runTask S W fuel id (upd σ id { σ id with p := true, src := some src }) with
        | none => none
        | some σ₂ =>
          match phase1 S W fuel rest src σ₂ with
          | none => none
          | some (r, σ₃) => some (r.map (fun outs => .ok () :: outs), σ₃)
    | none =>
      if isAbstract t then some (.error (.abstractNoTask t src), σ)
      else
        match phase1 S W fuel rest src σ with
        | none => none
        | some (r, σ₁) =>
          some (r.map (fun outs =>
            (if W.fsReadable t then .ok () else .error (.missingFile t src)) :: outs), σ₁)

/-- The async task body launched by updateTargets (lines 391-415): when
a cachedKey is present and a keyFn is defined, compute the key; on a
match return without running; otherwise run and re-cache; a BuildError
from any part is caught, marking the task failed (the future itself
always resolves). -/
def runTask (S : Sys) (W : World) : Nat → Nat → St → Option St
  | 0, _, _ => none
  | fuel + 1, id, σ =>
    match (σ id).ck, (S.decl id).hasKey with
    | some ck, true =>
      match keyFn S W fuel id σ with
      | none => none
      | some (.error _, σ₁) => some (upd σ₁ id { σ₁ id with failed := true })
      | some (.ok k, σ₁) =>
        if k = ck then some σ₁
        else doRun S W fuel id σ₁
    | _, _ => doRun S W fuel id σ

/-- The cache-miss path of the task body (lines 401-406 plus the catch):
invoke run, modelled with the generic shape shared by RULE, CPP and
LINK, namely update the prerequisites and then execute the external
commands, which raise a BuildError exactly when the runFails oracle says
so; on success, when a keyFn exists, recompute the key and store it as
the task's new cachedKey.  A BuildError anywhere marks the task failed
instead (and then the cachedKey is left untouched). -/
def doRun (S : Sys) (W : World) : Nat → Nat → St → Option St
  | 0, _, _ => none
  | fuel + 1, id, σ =>
    match updateTargets S W fuel (S.decl id).prereqs (S.decl id).label
        (upd σ id { σ id with rc := (σ id).rc + 1 }) with
    | none => none
    | some (.error _, σ₁) => some (upd σ₁ id { σ₁ id with failed := true })
    | some (.ok _, σ₁) =>
      if W.runFails id then some (upd σ₁ id { σ₁ id with failed := true })
      else if (S.decl id).hasKey then
        match keyFn S W fuel id σ₁ with
        | none => none
        | some (.error _, σ₂) => some (upd σ₂ id { σ₂ id with failed := true })
        | some (.ok k, σ₂) => some (upd σ₂ id { σ₂ id with ck := some k })
      else some σ₁

/-- A task's keyFn, in the generic shape shared by RULE, CPP and LINK:
recursively update the prerequisites, then hash the inputs and outputs;
the hashed value is the keyPre oracle before the task's own run has
executed and keyPost after it.  A BuildError of the recursive update
propagates to the caller. -/
def keyFn (S : Sys) (W : World) : Nat → Nat → St → Option (Except Err Nat × St)
  | 0, _, _ => none
  | fuel + 1, id, σ =>
    match updateTargets S W fuel (S.decl id).prereqs
        ((S.decl id).label ++ " (keyFn)")
        (upd σ id { σ id with kc := (σ id).kc + 1 }) with
    | none => none
    | some (.error e, σ₁) => some (.error e, σ₁)
    | some (.ok _, σ₁) =>
      some (.ok (if (σ₁ id).rc = 0 then W.keyPre id else W.keyPost id), σ₁)

end

/-- Step 1 of update (lines 291-294): delete every task's cachedKey. -/
def clearCache (S : Sys) (σ : St) : St :=
  S.targetList.foldl (fun σ t =>
    match S.owner t with
    | some id => upd σ id { σ id with ck := none }
    | none => σ) σ

/-- Step 2 of update (lines 295-314): assign cachedKey values from the
cache file entries whose target is registered (entries of unknown
targets are dropped; a missing or unreadable cache file is the empty
entry list). -/
def loadCache (S : Sys) (entries : List (String × Nat)) (σ : St) : St :=
  entries.foldl (fun σ e =>
    match S.owner e.1 with
    | some id => upd σ id { σ id with ck := some e.2 }
    | none => σ) σ

/-- Steps 4-5 of update (lines 330-341): serialize one entry per
registered target whose task has a cachedKey. -/
def storeCache (S : Sys) (σ : St) : List (String × Nat) :=
  S.targetList.filterMap (fun t =>
    match S.owner t with
    | some id => ((σ id).ck).map (fun v => (t, v))
    | none => none)

/-- update (lines 288-343): clear and reload the cachedKeys, run
updateTargets over the requested targets with src "user" (catching its
BuildError, which only sets the process exit code), then write the
surviving cachedKeys back.  The result carries the caught outcome, the
written cache file and the final task states. -/
def update (S : Sys) (W : World) (fuel : Nat) (entries : List (String × Nat))
    (targets : List String) (σ : St) :
    Option (Except Err Unit × List (String × Nat) × St) :=
  match updateTargets S W fuel targets "user" (loadCache S entries (clearCache S σ)) with
  | none => none
  | some (r, σ₂) => some (r, storeCache S σ₂, σ₂)

/-- The keyFn presence decision of RULE (line 107): defined iff no
declared target is abstract. -/
def ruleHasKey (targets : List String) : Bool := !(targets.any (fun t => isAbstract t))

/-- The task installed by RULE (lines 104-136), structural part. -/
def mkRULE (targets prerequisites : List String) : MTask :=
  { prereqs := prerequisites, hasKey := ruleHasKey targets,
    label := "RULE " ++ targets.headD "undefined" }

/-- A concrete two-task registry used by the witnesses: target a is made
by task 0 from prerequisite b, which task 1 makes; both tasks have key
functions. -/
def Sc : Sys :=
  { owner := fun t => if t = "a" then some 0 else if t = "b" then some 1 else none,
    decl := fun id => if id = 0 then ⟨["b"], true, "RULE a"⟩ else ⟨[], true, "RULE b"⟩,
    targetList := ["a", "b"] }

/-- A world in which both recipes succeed and running a task changes its
key (a first build). -/
def Wc : World :=
  { fsReadable := fun _ => false, runFails := fun _ => false,
    keyPre := fun id => if id = 0 then 10 else 20,
    keyPost := fun id => if id = 0 then 11 else 21 }

/-- A world in which nothing changed since the previous successful build:
the key computed before running equals the one computed after. -/
def Wc2 : World :=
  { fsReadable := fun _ => false, runFails := fun _ => false,
    keyPre := fun id => if id = 0 then 11 else 21,
    keyPost := fun id => if id = 0 then 11 else 21 }

/-- A world in which the recipe of task 0 fails with a BuildError. -/
def Wc3 : World :=
  { fsReadable := fun _ => false, runFails := fun id => id = 0,
    keyPre := fun _ => 10, keyPost := fun _ => 11 }

/-! ### Frame and invariant machinery for the scheduler -/

theorem upd_same (σ : St) (id : Nat) (v : TState) : upd σ id v id = v := by
  simp [upd]

theorem upd_other (σ : St) (id : Nat) (v : TState) {j : Nat} (h : j ≠ id) :
    upd σ id v j = σ j := by
  simp [upd, h]

/-- Only freshly launched tasks change state: any task state modified by
a call (other than the call's own task, when sf names one) was
un-pending before and pending after. -/
def frameOK (sf : Option Nat) (σ σ' : St) : Prop :=
  ∀ j, sf ≠ some j → σ' j ≠ σ j → ((σ j).p = false ∧ (σ' j).p = true)

/-- cachedKey discipline: a task with no keyFn never has its cachedKey
modified, and a task that fails during a call keeps the cachedKey it
entered the call with. -/
def ckOK (S : Sys) (σ σ' : St) : Prop :=
  (∀ j, (S.decl j).hasKey = false → (σ' j).ck = (σ j).ck) ∧
  (∀ j, (σ j).failed = false → (σ' j).failed = true → (σ' j).ck = (σ j).ck)

/-- The at-most-once invariant: run never invoked more than once, and a
task that is not pending has never been run, has never failed and has
never had its keyFn invoked. -/
def SchedInv (σ : St) : Prop :=
  ∀ j, (σ j).rc ≤ 1 ∧
    ((σ j).p = false → (σ j).rc = 0 ∧ (σ j).failed = false ∧ (σ j).kc = 0)

theorem frameOK_refl (sf : Option Nat) (σ : St) : frameOK sf σ σ :=
  fun _ _ h => absurd rfl h

theorem ckOK_refl (S : Sys) (σ : St) : ckOK S σ σ :=
  ⟨fun _ _ => rfl, fun _ _ _ => rfl⟩

theorem frameOK_stable {sf : Option Nat} {σ σ' : St} (h : frameOK sf σ σ') {j : Nat}
    (hj : sf ≠ some j) (hp : (σ j).p = true) : σ' j = σ j := by
  by_cases he : σ' j = σ j
  · exact he
  · have := (h j hj he).1
    rw [hp] at this
    cases this

theorem frameOK_weaken {id : Nat} {σ σ' : St} (h : frameOK none σ σ') :
    frameOK (some id) σ σ' :=
  fun j _ he => h j (by simp) he

theorem frameOK_comp_some {id : Nat} {σ σ₁ σ₂ : St} (h1 : frameOK (some id) σ σ₁)
    (h2 : frameOK (some id) σ₁ σ₂) :
    frameOK (some id) σ σ₂ := by
  intro j hj he
  by_cases he1 : σ₁ j = σ j
  · rw [← he1]
    exact h2 j hj (fun hc => he (hc.trans he1))
  · obtain ⟨hp0, hp1⟩ := h1 j hj he1
    refine ⟨hp0, ?_⟩
    have := frameOK_stable h2 hj hp1
    rw [this, hp1]

theorem frameOK_comp_none {σ σ₁ σ₂ : St} (h1 : frameOK none σ σ₁)
    (h2 : frameOK none σ₁ σ₂) : frameOK none σ σ₂ := by
  intro j hj he
  by_cases he1 : σ₁ j = σ j
  · rw [← he1]
    exact h2 j hj (fun hc => he (hc.trans he1))
  · obtain ⟨hp0, hp1⟩ := h1 j hj he1
    exact ⟨hp0, by rw [frameOK_stable h2 hj hp1, hp1]⟩

/-- Composing a launch (pending was false, becomes true) with the body
of the launched task and a frame-respecting continuation yields a plain
frame: every modified task, the launched one included, went from
un-pending to pending. -/
theorem frameOK_launch {id : Nat} {σ σ₁ σ₂ : St} {s : Option String}
    (hp : (σ id).p = false) (hσ₁ : σ₁ = upd σ id { σ id with p := true, src := s })
    (h2 : frameOK (some id) σ₁ σ₂) (hps : (σ₂ id).p = true) :
    frameOK none σ σ₂ := by
  intro j _ he
  by_cases hji : j = id
  · subst hji
    exact ⟨hp, hps⟩
  · have e1 : σ₁ j = σ j := by rw [hσ₁]; exact upd_other _ _ _ hji
    have hne : (some id : Option Nat) ≠ some j := by
      intro hc
      injection hc with hh
      exact hji hh.symm
    have := h2 j hne (fun hc => he (by rw [hc, e1]))
    rw [e1] at this
    exact this

/-- Bundle statement for updateTargets at one fuel value. -/
def PUpd (fuel : Nat) : Prop :=
  ∀ (S : Sys) (W : World) (ts : List String) (src : String) (σ : St)
    (r : Except Err Unit) (σ' : St),
    SchedInv σ → updateTargets S W fuel ts src σ = some (r, σ') →
    frameOK none σ σ' ∧ SchedInv σ' ∧ ckOK S σ σ'

/-- Bundle statement for phase1 at one fuel value. -/
def PPh (fuel : Nat) : Prop :=
  ∀ (S : Sys) (W : World) (ts : List String) (src : String) (σ : St)
    (r : Except Err (List (Except Err Unit))) (σ' : St),
    SchedInv σ → phase1 S W fuel ts src σ = some (r, σ') →
    frameOK none σ σ' ∧ SchedInv σ' ∧ ckOK S σ σ'

/-- Bundle statement for runTask at one fuel value. -/
def PRun (fuel : Nat) : Prop :=
  ∀ (S : Sys) (W : World) (id : Nat) (σ σ' : St),
    SchedInv σ → (σ id).p = true → (σ id).rc = 0 → (σ id).failed = false →
    runTask S W fuel id σ = some σ' →
    frameOK (some id) σ σ' ∧ SchedInv σ' ∧ ckOK S σ σ' ∧
    (σ' id).p = true ∧ (σ' id).src = (σ id).src

/-- Bundle statement for doRun at one fuel value. -/
def PDo (fuel : Nat) : Prop :=
  ∀ (S : Sys) (W : World) (id : Nat) (σ σ' : St),
    SchedInv σ → (σ id).p = true → (σ id).rc = 0 → (σ id).failed = false →
    doRun S W fuel id σ = some σ' →
    frameOK (some id) σ σ' ∧ SchedInv σ' ∧ ckOK S σ σ' ∧
    (σ' id).p = true ∧ (σ' id).src = (σ id).src ∧
    (σ' id).rc = (σ id).rc + 1 ∧
    ((σ' id).failed = false →
      ((S.decl id).hasKey = true → (σ' id).ck = some (W.keyPost id)) ∧
      ((S.decl id).hasKey = false → (σ' id).ck = (σ id).ck))

/-- Bundle statement for keyFn at one fuel value. -/
def PKey (fuel : Nat) : Prop :=
  ∀ (S : Sys) (W : World) (id : Nat) (σ : St) (r : Except Err Nat) (σ' : St),
    SchedInv σ → (σ id).p = true →
    keyFn S W fuel id σ = some (r, σ') →
    frameOK (some id) σ σ' ∧ SchedInv σ' ∧ ckOK S σ σ' ∧
    (σ' id).p = (σ id).p ∧ (σ' id).src = (σ id).src ∧
    (σ' id).ck = (σ id).ck ∧ (σ' id).rc = (σ id).rc ∧
    (σ' id).failed = (σ id).failed ∧ (σ' id).kc = (σ id).kc + 1 ∧
    (∀ k, r = .ok k → k = (if (σ id).rc = 0 then W.keyPre id else W.keyPost id))

theorem frameOK_upd_self (σ : St) (id : Nat) (v : TState) :
    frameOK (some id) σ (upd σ id v) := by
  intro j hj he
  have hji : j ≠ id := fun hh => hj (by rw [hh])
  exact absurd (upd_other σ id v hji) he

theorem schedInv_upd {σ : St} {id : Nat} {v : TState} (h : SchedInv σ) (hrc : v.rc ≤ 1)
    (hp : v.p = false → v.rc = 0 ∧ v.failed = false ∧ v.kc = 0) : SchedInv (upd σ id v) := by
  intro j
  by_cases hj : j = id
  · subst hj
    rw [upd_same]
    exact ⟨hrc, hp⟩
  · rw [upd_other _ _ _ hj]
    exact h j

/-- failed implies pending, under the invariant. -/
theorem schedInv_failed_p {σ : St} (h : SchedInv σ) {j : Nat}
    (hf : (σ j).failed = true) : (σ j).p = true := by
  by_cases hp : (σ j).p = true
  · exact hp
  · have := ((h j).2 (by simpa using hp)).2.1
    rw [this] at hf
    cases hf

theorem schedBundle : ∀ fuel, PUpd fuel ∧ PPh fuel ∧ PRun fuel ∧ PDo fuel ∧ PKey fuel := by
  intro fuel
  induction fuel with
  | zero =>
    refine ⟨?_, ?_, ?_, ?_, ?_⟩
    · intro S W ts src σ r σ' _ h
      simp [updateTargets] at h
    · intro S W ts src σ r σ' _ h
      simp [phase1] at h
    · intro S W id σ σ' _ _ _ _ h
      simp [runTask] at h
    · intro S W id σ σ' _ _ _ _ h
      simp [doRun] at h
    · intro S W id σ r σ' _ _ h
      simp [keyFn] at h
  | succ fuel ih =>
    obtain ⟨ihU, ihP, ihR, ihD, ihK⟩ := ih
    refine ⟨?_, ?_, ?_, ?_, ?_⟩
    · -- PUpd (fuel+1)
      intro S W ts src σ r σ' hInv h
      simp only [updateTargets] at h
      split at h
      · cases h
      · rename_i e σ₁ hph
        cases h
        exact ihP S W ts src σ _ _ hInv hph
      · rename_i outs σ₁ hph
        obtain ⟨hf, hi, hc⟩ := ihP S W ts src σ _ _ hInv hph
        split at h
        · cases h
          exact ⟨hf, hi, hc⟩
        · cases h
          exact ⟨hf, hi, hc⟩
    · -- PPh (fuel+1)
      intro S W ts src σ r σ' hInv h
      cases ts with
      | nil =>
        simp only [phase1] at h
        cases h
        exact ⟨frameOK_refl none σ, hInv, ckOK_refl S σ⟩
      | cons t rest =>
        simp only [phase1] at h
        split at h
        · -- target owned by a task
          rename_i i howner
          split at h
          · -- the task is already pending: await its future
            rename_i hpend
            split at h
            · cases h
            · rename_i r₁ σ₁ hph
              cases h
              exact ihP S W rest src σ r₁ _ hInv hph
          · -- launch the task
            rename_i hpend
            have hpf : (σ i).p = false := by simpa using hpend
            obtain ⟨hrc0, hfl0, hkc0⟩ := (hInv i).2 hpf
            have hckL : ∀ j, ((upd σ i { σ i with p := true, src := some src }) j).ck
                = (σ j).ck := by
              intro j
              by_cases hj : j = i
              · subst hj; rw [upd_same]
              · rw [upd_other _ _ _ hj]
            have hflL : ∀ j, ((upd σ i { σ i with p := true, src := some src }) j).failed
                = (σ j).failed := by
              intro j
              by_cases hj : j = i
              · subst hj; rw [upd_same]
              · rw [upd_other _ _ _ hj]
            have hInvL : SchedInv (upd σ i { σ i with p := true, src := some src }) :=
              schedInv_upd hInv (hInv i).1 (fun hpc => by cases hpc)
            have hp1 : ((upd σ i { σ i with p := true, src := some src }) i).p = true := by
              rw [upd_same]
            split at h
            · cases h
            · rename_i σ₂ hrt
              split at h
              · cases h
              · rename_i r₃ σ₃ hph
                cases h
                obtain ⟨frR, invR, ckR, pR, srcR⟩ :=
                  ihR S W i _ σ₂ hInvL hp1 (by rw [upd_same]; exact hrc0)
                    (by rw [upd_same]; exact hfl0) hrt
                obtain ⟨frT, invT, ckT⟩ := ihP S W rest src σ₂ r₃ _ invR hph
                have hps3 : (σ' i).p = true := by
                  rw [frameOK_stable frT (by simp) pR]
                  exact pR
                refine ⟨frameOK_launch hpf rfl
                    (frameOK_comp_some frR (frameOK_weaken frT)) hps3, invT, ?_, ?_⟩
                · intro j hkj
                  rw [ckT.1 j hkj, ckR.1 j hkj, hckL j]
                · intro j h1 h2
                  by_cases hj : j = i
                  · subst hj
                    by_cases hf2 : (σ₂ j).failed = true
                    · rw [frameOK_stable frT (by simp) pR,
                        ckR.2 j (by rw [hflL j]; exact h1) hf2, hckL j]
                    · by_cases he : σ' j = σ₂ j
                      · rw [he] at h2
                        rw [h2] at hf2
                        exact absurd rfl hf2
                      · obtain ⟨hq0, hq1⟩ := frT j (by simp) he
                        rw [pR] at hq0
                        cases hq0
                  · have hjne : (some i : Option Nat) ≠ some j := by
                      intro hc
                      injection hc with hc2
                      exact hj hc2.symm
                    by_cases hf2 : (σ₂ j).failed = true
                    · rw [frameOK_stable frT (by simp) (schedInv_failed_p invR hf2),
                        ckR.2 j (by rw [hflL j]; exact h1) hf2, hckL j]
                    · rw [ckT.2 j (by simpa using hf2) h2]
                      by_cases he : σ₂ j = (upd σ i { σ i with p := true, src := some src }) j
                      · rw [he, hckL j]
                      · obtain ⟨hq0, hq1⟩ := frR j hjne he
                        have := frameOK_stable frT (by simp) hq1
                        rw [this] at h2
                        rw [h2] at hf2
                        exact absurd rfl hf2
        · -- target not owned by any task
          rename_i howner
          split at h
          · cases h
            exact ⟨frameOK_refl none σ, hInv, ckOK_refl S σ⟩
          · rename_i habs
            split at h
            · cases h
            · rename_i r₁ σ₁ hph
              cases h
              exact ihP S W rest src σ r₁ _ hInv hph
    · -- PRun (fuel+1)
      intro S W id σ σ' hInv hp hrc hfl h
      simp only [runTask] at h
      split at h
      · rename_i ck hck hhk
        split at h
        · cases h
        · rename_i e σ₁ hk
          cases h
          obtain ⟨frK, invK, ckK, pK, srcK, ckSelfK, rcK, flK, kcK, valK⟩ :=
            ihK S W id σ _ σ₁ hInv hp hk
          have hpK : (σ₁ id).p = true := by rw [pK]; exact hp
          refine ⟨frameOK_comp_some frK (frameOK_upd_self σ₁ id _),
            schedInv_upd invK (invK id).1 (fun hpf => ?_), ⟨?_, ?_⟩, ?_, ?_⟩
          · exact absurd (hpK ▸ hpf) (by simp [hpK])
          · intro j hkj
            by_cases hj : j = id
            · subst hj
              rw [hhk] at hkj
              cases hkj
            · rw [upd_other _ _ _ hj]
              exact ckK.1 j hkj
          · intro j h1 h2
            by_cases hj : j = id
            · subst hj
              rw [upd_same]
              exact ckSelfK
            · rw [upd_other _ _ _ hj]
              rw [upd_other _ _ _ hj] at h2
              exact ckK.2 j h1 h2
          · rw [upd_same]
            exact hpK
          · rw [upd_same]
            exact srcK
        · rename_i k σ₁ hk
          split at h
          · cases h
            obtain ⟨frK, invK, ckK, pK, srcK, ckSelfK, rcK, flK, kcK, valK⟩ :=
              ihK S W id σ _ _ hInv hp hk
            exact ⟨frK, invK, ckK, by rw [pK]; exact hp, srcK⟩
          · obtain ⟨frK, invK, ckK, pK, srcK, ckSelfK, rcK, flK, kcK, valK⟩ :=
              ihK S W id σ _ _ hInv hp hk
            obtain ⟨frD, invD, ckD, pD, srcD, rcD, fD⟩ :=
              ihD S W id σ₁ σ' invK (by rw [pK]; exact hp) (by rw [rcK]; exact hrc)
                (by rw [flK]; exact hfl) h
            refine ⟨frameOK_comp_some frK frD, invD, ⟨?_, ?_⟩, pD, srcD.trans srcK⟩
            · intro j hkj
              rw [ckD.1 j hkj, ckK.1 j hkj]
            · intro j h1 h2
              by_cases hj : j = id
              · subst hj
                rw [ckD.2 _ (by rw [flK]; exact h1) h2]
                exact ckSelfK
              · have hjne : (some id : Option Nat) ≠ some j := by
                  intro hc
                  injection hc with hc2
                  exact hj hc2.symm
                by_cases hf1 : (σ₁ j).failed = true
                · rw [frameOK_stable frD hjne (schedInv_failed_p invK hf1)]
                  exact ckK.2 j h1 hf1
                · rw [ckD.2 j (by simpa using hf1) h2]
                  by_cases he : σ₁ j = σ j
                  · rw [he]
                  · obtain ⟨hp0, hp1⟩ := frK j hjne he
                    have := frameOK_stable frD hjne hp1
                    rw [this] at h2
                    rw [h2] at hf1
                    exact absurd rfl hf1
      · -- fallthrough: no cachedKey or no keyFn
        obtain ⟨frD, invD, ckD, pD, srcD, rcD, fD⟩ := ihD S W id σ σ' hInv hp hrc hfl h
        exact ⟨frD, invD, ckD, pD, srcD⟩
    · -- PDo (fuel+1)
      intro S W i σ σ' hInv hp hrc hfl h
      simp only [doRun] at h
      have hInv0 : SchedInv (upd σ i { σ i with rc := (σ i).rc + 1 }) :=
        schedInv_upd hInv (by rw [hrc]) (fun hpf => absurd (hp ▸ hpf) (by simp [hp]))
      have hf0 : frameOK (some i) σ (upd σ i { σ i with rc := (σ i).rc + 1 }) :=
        frameOK_upd_self σ i _
      have hck0 : ∀ j, ((upd σ i { σ i with rc := (σ i).rc + 1 }) j).ck = (σ j).ck := by
        intro j
        by_cases hj : j = i
        · subst hj; rw [upd_same]
        · rw [upd_other _ _ _ hj]
      have hfl0 : ∀ j, ((upd σ i { σ i with rc := (σ i).rc + 1 }) j).failed = (σ j).failed := by
        intro j
        by_cases hj : j = i
        · subst hj; rw [upd_same]
        · rw [upd_other _ _ _ hj]
      have hp0 : ((upd σ i { σ i with rc := (σ i).rc + 1 }) i).p = true := by
        rw [upd_same]
        exact hp
      split at h
      · cases h
      · -- recursive update of the prerequisites raised a BuildError
        rename_i e σ₁ hu
        cases h
        obtain ⟨frU, invU, ckU⟩ := ihU S W _ _ _ _ _ hInv0 hu
        have hstab : σ₁ i = { σ i with rc := (σ i).rc + 1 } := by
          rw [frameOK_stable frU (by simp) hp0, upd_same]
        have hpi : (σ₁ i).p = true := by rw [hstab]; exact hp
        refine ⟨frameOK_comp_some hf0 (frameOK_comp_some (frameOK_weaken frU)
            (frameOK_upd_self σ₁ i _)),
          schedInv_upd invU (invU i).1 (fun hpf => absurd (hpi ▸ hpf) (by simp [hpi])),
          ⟨?_, ?_⟩, ?_, ?_, ?_, ?_⟩
        · intro j hkj
          by_cases hj : j = i
          · subst hj
            rw [upd_same]
            show (σ₁ j).ck = (σ j).ck
            rw [hstab]
          · rw [upd_other _ _ _ hj, ckU.1 j hkj, hck0 j]
        · intro j h1 h2
          by_cases hj : j = i
          · subst hj
            rw [upd_same]
            show (σ₁ j).ck = (σ j).ck
            rw [hstab]
          · rw [upd_other _ _ _ hj]
            rw [upd_other _ _ _ hj] at h2
            rw [ckU.2 j (by rw [hfl0 j]; exact h1) h2, hck0 j]
        · rw [upd_same]
          exact hpi
        · rw [upd_same]
          show (σ₁ i).src = (σ i).src
          rw [hstab]
        · rw [upd_same]
          show (σ₁ i).rc = (σ i).rc + 1
          rw [hstab]
        · intro hff
          rw [upd_same] at hff
          cases hff
      · -- the recursive update of the prerequisites succeeded
        rename_i u σ₁ hu
        obtain ⟨frU, invU, ckU⟩ := ihU S W _ _ _ _ _ hInv0 hu
        have hstab : σ₁ i = { σ i with rc := (σ i).rc + 1 } := by
          rw [frameOK_stable frU (by simp) hp0, upd_same]
        have hpi : (σ₁ i).p = true := by rw [hstab]; exact hp
        have hfli : (σ₁ i).failed = false := by rw [hstab]; exact hfl
        have hrci : (σ₁ i).rc = (σ i).rc + 1 := by rw [hstab]
        have hcki : (σ₁ i).ck = (σ i).ck := by rw [hstab]
        have hsrci : (σ₁ i).src = (σ i).src := by rw [hstab]
        have frU' : frameOK (some i) σ σ₁ :=
          frameOK_comp_some hf0 (frameOK_weaken frU)
        have ckU1' : ∀ j, (S.decl j).hasKey = false → (σ₁ j).ck = (σ j).ck := by
          intro j hkj
          rw [ckU.1 j hkj, hck0 j]
        have ckU2' : ∀ j, (σ j).failed = false → (σ₁ j).failed = true →
            (σ₁ j).ck = (σ j).ck := by
          intro j h1 h2
          rw [ckU.2 j (by rw [hfl0 j]; exact h1) h2, hck0 j]
        split at h
        · -- the recipe commands failed
          cases h
          refine ⟨frameOK_comp_some frU' (frameOK_upd_self σ₁ i _),
            schedInv_upd invU (invU i).1 (fun hpf => absurd (hpi ▸ hpf) (by simp [hpi])),
            ⟨?_, ?_⟩, ?_, ?_, ?_, ?_⟩
          · intro j hkj
            by_cases hj : j = i
            · subst hj
              rw [upd_same]
              exact hcki
            · rw [upd_other _ _ _ hj]
              exact ckU1' j hkj
          · intro j h1 h2
            by_cases hj : j = i
            · subst hj
              rw [upd_same]
              exact hcki
            · rw [upd_other _ _ _ hj]
              rw [upd_other _ _ _ hj] at h2
              exact ckU2' j h1 h2
          · rw [upd_same]
            exact hpi
          · rw [upd_same]
            exact hsrci
          · rw [upd_same]
            exact hrci
          · intro hff
            rw [upd_same] at hff
            cases hff
        · -- the recipe commands succeeded
          rename_i hrf
          split at h
          · -- a keyFn exists: recompute and store the key
            rename_i hhk
            split at h
            · cases h
            · -- the post-run keyFn raised a BuildError
              rename_i e σ₂ hk2
              cases h
              obtain ⟨frK2, invK2, ckK2, pK2, srcK2, ckSelfK2, rcK2, flK2, kcK2, valK2⟩ :=
                ihK S W i σ₁ _ σ₂ invU hpi hk2
              have hpi2 : (σ₂ i).p = true := by rw [pK2]; exact hpi
              refine ⟨frameOK_comp_some frU' (frameOK_comp_some frK2 (frameOK_upd_self σ₂ i _)),
                schedInv_upd invK2 (invK2 i).1 (fun hpf => absurd (hpi2 ▸ hpf) (by simp [hpi2])),
                ⟨?_, ?_⟩, ?_, ?_, ?_, ?_⟩
              · intro j hkj
                by_cases hj : j = i
                · subst hj
                  rw [upd_same, ckSelfK2]
                  exact hcki
                · rw [upd_other _ _ _ hj, ckK2.1 j hkj]
                  exact ckU1' j hkj
              · intro j h1 h2
                by_cases hj : j = i
                · subst hj
                  rw [upd_same, ckSelfK2]
                  exact hcki
                · rw [upd_other _ _ _ hj]
                  rw [upd_other _ _ _ hj] at h2
                  have hjne : (some i : Option Nat) ≠ some j := by
                    intro hc
                    injection hc with hc2
                    exact hj hc2.symm
                  by_cases hf1 : (σ₁ j).failed = true
                  · rw [frameOK_stable frK2 hjne (schedInv_failed_p invU hf1)]
                    exact ckU2' j h1 hf1
                  · rw [ckK2.2 j (by simpa using hf1) h2]
                    by_cases he : σ₁ j = σ j
                    · rw [he]
                    · obtain ⟨hq0, hq1⟩ := frU' j hjne he
                      have := frameOK_stable frK2 hjne hq1
                      rw [this] at h2
                      rw [h2] at hf1
                      exact absurd rfl hf1
              · rw [upd_same]
                exact hpi2
              · rw [upd_same, srcK2]
                exact hsrci
              · rw [upd_same, rcK2]
                exact hrci
              · intro hff
                rw [upd_same] at hff
                cases hff
            · -- the post-run keyFn succeeded: store the new cachedKey
              rename_i k σ₂ hk2
              cases h
              obtain ⟨frK2, invK2, ckK2, pK2, srcK2, ckSelfK2, rcK2, flK2, kcK2, valK2⟩ :=
                ihK S W i σ₁ _ σ₂ invU hpi hk2
              have hpi2 : (σ₂ i).p = true := by rw [pK2]; exact hpi
              have hfl2 : (σ₂ i).failed = false := by rw [flK2]; exact hfli
              refine ⟨frameOK_comp_some frU' (frameOK_comp_some frK2 (frameOK_upd_self σ₂ i _)),
                schedInv_upd invK2 (invK2 i).1 (fun hpf => absurd (hpi2 ▸ hpf) (by simp [hpi2])),
                ⟨?_, ?_⟩, ?_, ?_, ?_, ?_⟩
              · intro j hkj
                by_cases hj : j = i
                · subst hj
                  rw [hhk] at hkj
                  cases hkj
                · rw [upd_other _ _ _ hj, ckK2.1 j hkj]
                  exact ckU1' j hkj
              · intro j h1 h2
                by_cases hj : j = i
                · subst hj
                  rw [upd_same] at h2
                  rw [hfl2] at h2
                  cases h2
                · rw [upd_other _ _ _ hj]
                  rw [upd_other _ _ _ hj] at h2
                  have hjne : (some i : Option Nat) ≠ some j := by
                    intro hc
                    injection hc with hc2
                    exact hj hc2.symm
                  by_cases hf1 : (σ₁ j).failed = true
                  · rw [frameOK_stable frK2 hjne (schedInv_failed_p invU hf1)]
                    exact ckU2' j h1 hf1
                  · rw [ckK2.2 j (by simpa using hf1) h2]
                    by_cases he : σ₁ j = σ j
                    · rw [he]
                    · obtain ⟨hq0, hq1⟩ := frU' j hjne he
                      have := frameOK_stable frK2 hjne hq1
                      rw [this] at h2
                      rw [h2] at hf1
                      exact absurd rfl hf1
              · rw [upd_same]
                exact hpi2
              · rw [upd_same, srcK2]
                exact hsrci
              · rw [upd_same, rcK2]
                exact hrci
              · intro hff
                constructor
                · intro _
                  rw [upd_same]
                  have hkval := valK2 k rfl
                  rw [hrci] at hkval
                  simp at hkval
                  rw [hkval]
                · intro hkf
                  rw [hhk] at hkf
                  cases hkf
          · -- no keyFn: done after run
            rename_i hhk
            cases h
            refine ⟨frU', invU, ⟨ckU1', ckU2'⟩, hpi, hsrci, hrci, ?_⟩
            intro hff
            constructor
            · intro hkt
              rw [hkt] at hhk
              exact absurd rfl hhk
            · intro _
              exact hcki
    · -- PKey (fuel+1)
      intro S W id σ r σ' hInv hp h
      simp only [keyFn] at h
      have hInv0 : SchedInv (upd σ id { σ id with kc := (σ id).kc + 1 }) :=
        schedInv_upd hInv (hInv id).1 (fun hpf => absurd (hp ▸ hpf) (by simp [hp]))
      have hf0 : frameOK (some id) σ (upd σ id { σ id with kc := (σ id).kc + 1 }) :=
        frameOK_upd_self σ id _
      have hck0 : ∀ j, ((upd σ id { σ id with kc := (σ id).kc + 1 }) j).ck = (σ j).ck := by
        intro j
        by_cases hj : j = id
        · subst hj; rw [upd_same]
        · rw [upd_other _ _ _ hj]
      have hfl0 : ∀ j, ((upd σ id { σ id with kc := (σ id).kc + 1 }) j).failed = (σ j).failed := by
        intro j
        by_cases hj : j = id
        · subst hj; rw [upd_same]
        · rw [upd_other _ _ _ hj]
      split at h
      · cases h
      · rename_i e σ₁ hu
        cases h
        obtain ⟨frU, invU, ckU⟩ := ihU S W _ _ _ _ _ hInv0 hu
        have hp0 : ((upd σ id { σ id with kc := (σ id).kc + 1 }) id).p = true := by
          rw [upd_same]
          exact hp
        have hstab : σ' id = { σ id with kc := (σ id).kc + 1 } := by
          rw [frameOK_stable frU (by simp) hp0, upd_same]
        refine ⟨frameOK_comp_some hf0 (frameOK_weaken frU), invU, ⟨?_, ?_⟩,
          ?_, ?_, ?_, ?_, ?_, ?_, ?_⟩
        · intro j hk
          rw [ckU.1 j hk, hck0 j]
        · intro j hf1 hf2
          have := ckU.2 j (by rw [hfl0 j]; exact hf1) hf2
          rw [this, hck0 j]
        · rw [hstab]
        · rw [hstab]
        · rw [hstab]
        · rw [hstab]
        · rw [hstab]
        · rw [hstab]
        · intro k hk
          cases hk
      · rename_i u σ₁ hu
        cases h
        obtain ⟨frU, invU, ckU⟩ := ihU S W _ _ _ _ _ hInv0 hu
        have hp0 : ((upd σ id { σ id with kc := (σ id).kc + 1 }) id).p = true := by
          rw [upd_same]
          exact hp
        have hstab : σ' id = { σ id with kc := (σ id).kc + 1 } := by
          rw [frameOK_stable frU (by simp) hp0, upd_same]
        refine ⟨frameOK_comp_some hf0 (frameOK_weaken frU), invU, ⟨?_, ?_⟩,
          ?_, ?_, ?_, ?_, ?_, ?_, ?_⟩
        · intro j hk
          rw [ckU.1 j hk, hck0 j]
        · intro j hf1 hf2
          have := ckU.2 j (by rw [hfl0 j]; exact hf1) hf2
          rw [this, hck0 j]
        · rw [hstab]
        · rw [hstab]
        · rw [hstab]
        · rw [hstab]
        · rw [hstab]
        · rw [hstab]
        · intro k hk
          injection hk with hk2
          rw [← hk2]
          have : (σ' id).rc = (σ id).rc := by rw [hstab]
          rw [this]

/-! ### Properties of the update driver -/

/-- Evolution that touches only cachedKey fields. -/
def ckOnly (σ σ' : St) : Prop :=
  ∀ i, (σ' i).p = (σ i).p ∧ (σ' i).src = (σ i).src ∧ (σ' i).failed = (σ i).failed ∧
    (σ' i).rc = (σ i).rc ∧ (σ' i).kc = (σ i).kc

theorem ckOnly_refl (σ : St) : ckOnly σ σ := fun _ => ⟨rfl, rfl, rfl, rfl, rfl⟩

theorem ckOnly_trans {σ σ₁ σ₂ : St} (h1 : ckOnly σ σ₁) (h2 : ckOnly σ₁ σ₂) :
    ckOnly σ σ₂ := by
  intro i
  obtain ⟨a1, b1, c1, d1, e1⟩ := h1 i
  obtain ⟨a2, b2, c2, d2, e2⟩ := h2 i
  exact ⟨a2.trans a1, b2.trans b1, c2.trans c1, d2.trans d1, e2.trans e1⟩

theorem ckOnly_foldl {α : Type} (step : St → α → St)
    (hs : ∀ σ a, ckOnly σ (step σ a)) :
    ∀ (l : List α) (σ : St), ckOnly σ (l.foldl step σ) := by
  intro l
  induction l with
  | nil => intro σ; exact ckOnly_refl σ
  | cons a l ih =>
    intro σ
    exact ckOnly_trans (hs σ a) (ih (step σ a))

theorem ckOnly_upd_ck (σ : St) (i : Nat) (v : Option Nat) :
    ckOnly σ (upd σ i { σ i with ck := v }) := by
  intro j
  by_cases hj : j = i
  · subst hj
    rw [upd_same]
    exact ⟨rfl, rfl, rfl, rfl, rfl⟩
  · rw [upd_other _ _ _ hj]
    exact ⟨rfl, rfl, rfl, rfl, rfl⟩

theorem ckOnly_clearCache (S : Sys) (σ : St) : ckOnly σ (clearCache S σ) := by
  apply ckOnly_foldl
  intro σ a
  cases S.owner a with
  | none => exact ckOnly_refl σ
  | some id => exact ckOnly_upd_ck σ id none

theorem ckOnly_loadCache (S : Sys) (entries : List (String × Nat)) (σ : St) :
    ckOnly σ (loadCache S entries σ) := by
  apply ckOnly_foldl
  intro σ e
  cases S.owner e.1 with
  | none => exact ckOnly_refl σ
  | some id => exact ckOnly_upd_ck σ id (some e.2)

theorem schedInv_of_ckOnly {σ σ' : St} (h : ckOnly σ σ') (hInv : SchedInv σ) :
    SchedInv σ' := by
  intro i
  obtain ⟨a, b, c, d, e⟩ := h i
  rw [a, c, d, e]
  exact hInv i

theorem clear_pres_none (S : Sys) :
    ∀ (l : List String) (σ : St) (i : Nat), (σ i).ck = none →
      ((l.foldl (fun σ t =>
        match S.owner t with
        | some id => upd σ id { σ id with ck := none }
        | none => σ) σ) i).ck = none := by
  intro l
  induction l with
  | nil => intro σ i h; exact h
  | cons a l ih =>
    intro σ i h
    simp only [List.foldl_cons]
    apply ih
    cases howner : S.owner a with
    | none => simpa [howner] using h
    | some id =>
      simp only [howner]
      by_cases hj : i = id
      · subst hj
        rw [upd_same]
      · rw [upd_other _ _ _ hj]
        exact h

theorem clear_go_ck_none (S : Sys) :
    ∀ (l : List String) (σ : St) {t : String} {i : Nat}, t ∈ l → S.owner t = some i →
      ((l.foldl (fun σ t =>
        match S.owner t with
        | some id => upd σ id { σ id with ck := none }
        | none => σ) σ) i).ck = none := by
  intro l
  induction l with
  | nil => intro σ t i ht; cases ht
  | cons a l ih =>
    intro σ t i ht hi
    simp only [List.foldl_cons]
    rcases List.mem_cons.mp ht with h | h
    · subst h
      rw [hi]
      apply clear_pres_none
      dsimp only
      rw [upd_same]
    · exact ih _ h hi

theorem clearCache_ck_none {S : Sys} {t : String} {i : Nat} (σ : St)
    (ht : t ∈ S.targetList) (hi : S.owner t = some i) :
    ((clearCache S σ) i).ck = none :=
  clear_go_ck_none S S.targetList σ ht hi

theorem load_go_skip (S : Sys) :
    ∀ (l : List (String × Nat)) (σ : St) {i : Nat},
      (∀ e ∈ l, S.owner e.1 ≠ some i) →
      ((l.foldl (fun σ e =>
        match S.owner e.1 with
        | some id => upd σ id { σ id with ck := some e.2 }
        | none => σ) σ) i).ck = (σ i).ck := by
  intro l
  induction l with
  | nil => intro σ i _; rfl
  | cons e l ih =>
    intro σ i hno
    simp only [List.foldl_cons]
    have hstep : ((match S.owner e.1 with
        | some id => upd σ id { σ id with ck := some e.2 }
        | none => σ) i).ck = (σ i).ck := by
      cases howner : S.owner e.1 with
      | none => rfl
      | some id =>
        have hne : id ≠ i := by
          intro hc
          exact hno e (List.mem_cons_self _ _) (by rw [howner, hc])
        dsimp only
        rw [upd_other _ _ _ (Ne.symm hne)]
    rw [ih _ (fun e' he' => hno e' (List.mem_cons_of_mem _ he'))]
    exact hstep

theorem loadCache_skip_ck (S : Sys) {i : Nat} (entries : List (String × Nat)) (σ : St)
    (hno : ∀ e ∈ entries, S.owner e.1 ≠ some i) :
    ((loadCache S entries σ) i).ck = (σ i).ck :=
  load_go_skip S entries σ hno

theorem storeCache_mem {S : Sys} {σ : St} {t : String} {v : Nat}
    (h : (t, v) ∈ storeCache S σ) :
    t ∈ S.targetList ∧ ∃ i, S.owner t = some i ∧ (σ i).ck = some v := by
  unfold storeCache at h
  rw [List.mem_filterMap] at h
  obtain ⟨t', ht', hm⟩ := h
  cases howner : S.owner t' with
  | none => rw [howner] at hm; cases hm
  | some i =>
    rw [howner] at hm
    dsimp only at hm
    cases hck : (σ i).ck with
    | none => rw [hck] at hm; cases hm
    | some v' =>
      rw [hck] at hm
      simp at hm
      obtain ⟨h1, h2⟩ := hm
      subst h1
      subst h2
      exact ⟨ht', i, howner, hck⟩

theorem update_eq {S : Sys} {W : World} {fuel : Nat} {entries : List (String × Nat)}
    {targets : List String} {σ : St} {r : Except Err Unit}
    {out : List (String × Nat)} {σ' : St}
    (h : update S W fuel entries targets σ = some (r, out, σ')) :
    updateTargets S W fuel targets "user" (loadCache S entries (clearCache S σ)) =
      some (r, σ') ∧ out = storeCache S σ' := by
  unfold update at h
  split at h
  · cases h
  · rename_i r₁ σ₂ hu
    cases h
    exact ⟨hu, rfl⟩

/-- The initial state of every task satisfies the invariant. -/
theorem schedInv_init : SchedInv (fun _ => initT) := by
  intro j
  exact ⟨Nat.zero_le _, fun _ => ⟨rfl, rfl, rfl⟩⟩

/-- Stability of settled tasks across one update call: every field except
cachedKey is untouched (the cachedKey is cleared and reloaded from the
cache file at the start of update), and the invariant is preserved. -/
theorem update_stability {S : Sys} {W : World} {fuel : Nat}
    {entries : List (String × Nat)} {targets : List String} {σ : St}
    {r : Except Err Unit} {out : List (String × Nat)} {σ' : St}
    (hInv : SchedInv σ) (h : update S W fuel entries targets σ = some (r, out, σ')) :
    SchedInv σ' ∧ ∀ i, (σ i).p = true →
      (σ' i).p = true ∧ (σ' i).rc = (σ i).rc ∧ (σ' i).kc = (σ i).kc ∧
      (σ' i).failed = (σ i).failed ∧ (σ' i).src = (σ i).src := by
  obtain ⟨hu, hout⟩ := update_eq h
  have hckOnly : ckOnly σ (loadCache S entries (clearCache S σ)) :=
    ckOnly_trans (ckOnly_clearCache S σ) (ckOnly_loadCache S entries _)
  have hInvL : SchedInv (loadCache S entries (clearCache S σ)) :=
    schedInv_of_ckOnly hckOnly hInv
  obtain ⟨frU, invU, ckU⟩ := (schedBundle fuel).1 S W _ _ _ _ _ hInvL hu
  refine ⟨invU, fun i hp => ?_⟩
  obtain ⟨a, b, c, d, e⟩ := hckOnly i
  have hpL : ((loadCache S entries (clearCache S σ)) i).p = true := by rw [a]; exact hp
  have hstab := frameOK_stable frU (by simp) hpL
  rw [hstab, a, b, c, d, e]
  exact ⟨hp, rfl, rfl, rfl, rfl⟩

theorem promiseAll_ok {outs : List (Except Err Unit)}
    (h : ∀ o ∈ outs, o = Except.ok ()) : promiseAll outs = .ok () := by
  unfold promiseAll
  cases hf : outs.findSome? (fun o => match o with | .error e => some e | .ok _ => none) with
  | none => rfl
  | some e =>
    obtain ⟨o, ho, he⟩ := List.exists_of_findSome?_eq_some hf
    rw [h o ho] at he
    cases he

theorem walk2_ok_iff {S : Sys} {ts : List String} {σ : St} :
    walk2 S ts σ = .ok () ↔
      ∀ t ∈ ts, ∀ i, S.owner t = some i → (σ i).failed = false := by
  unfold walk2
  cases hf : ts.find? (fun t =>
      match S.owner t with
      | some id => (σ id).failed
      | none => false) with
  | none =>
    simp only
    constructor
    · intro _ t ht i hi
      have := List.find?_eq_none.mp hf t ht
      rw [hi] at this
      simpa using this
    · intro _
      trivial
  | some t =>
    simp only
    constructor
    · intro hc
      cases hc
    · intro hall
      have hmem := List.mem_of_find?_eq_some hf
      have hpred := List.find?_some hf
      cases howner : S.owner t with
      | none => rw [howner] at hpred; simp at hpred
      | some i =>
        rw [howner] at hpred
        simp only at hpred
        rw [hall t hmem i howner] at hpred
        cases hpred

theorem walk2_error {S : Sys} {ts : List String} {σ : St} {e : Err}
    (h : walk2 S ts σ = .error e) :
    ∃ t, t ∈ ts ∧ e = .lackOf t ∧
      ∃ i, S.owner t = some i ∧ (σ i).failed = true := by
  unfold walk2 at h
  cases hf : ts.find? (fun t =>
      match S.owner t with
      | some id => (σ id).failed
      | none => false) with
  | none => rw [hf] at h; cases h
  | some t =>
    rw [hf] at h
    cases h
    have hmem := List.mem_of_find?_eq_some hf
    have hpred := List.find?_some hf
    cases howner : S.owner t with
    | none => rw [howner] at hpred; simp at hpred
    | some i =>
      rw [howner] at hpred
      simp only at hpred
      exact ⟨t, hmem, rfl, i, howner, hpred⟩

/-- With every requested target owned by a task, the first phase of
updateTargets launches or awaits each of them (every owner pending in the
final state), no future rejects (task futures always resolve; failures
are recorded in the failed flag instead), and the loop never throws. -/
theorem phase1_allOwned :
    ∀ (fuel : Nat) (S : Sys) (W : World) (ts : List String) (src : String)
      (σ : St) (r : Except Err (List (Except Err Unit))) (σ' : St),
      SchedInv σ → (∀ t ∈ ts, S.owner t ≠ none) →
      phase1 S W fuel ts src σ = some (r, σ') →
      ∃ outs, r = .ok outs ∧ (∀ o ∈ outs, o = .ok ()) ∧
        ∀ t ∈ ts, ∀ i, S.owner t = some i → (σ' i).p = true := by
  intro fuel
  induction fuel with
  | zero =>
    intro S W ts src σ r σ' _ _ h
    simp [phase1] at h
  | succ fuel ih =>
    intro S W ts src σ r σ' hInv hown h
    cases ts with
    | nil =>
      simp only [phase1] at h
      cases h
      exact ⟨[], rfl, by simp, by simp⟩
    | cons t rest =>
      simp only [phase1] at h
      split at h
      · rename_i i howner
        split at h
        · -- already pending
          rename_i hpend
          split at h
          · cases h
          · rename_i r₁ σ₁ hph
            cases h
            obtain ⟨outs, hr, ho, hp'⟩ := ih S W rest src σ r₁ _ hInv
              (fun t' ht' => hown t' (List.mem_cons_of_mem _ ht')) hph
            subst hr
            obtain ⟨frT, invT, ckT⟩ := (schedBundle fuel).2.1 S W rest src σ _ _ hInv hph
            refine ⟨.ok () :: outs, rfl, ?_, ?_⟩
            · intro o hmo
              rcases List.mem_cons.mp hmo with h1 | h1
              · exact h1
              · exact ho o h1
            · intro t' ht' i' hi'
              rcases List.mem_cons.mp ht' with h1 | h1
              · subst h1
                rw [hi'] at howner
                injection howner with hii
                subst hii
                rw [frameOK_stable frT (by simp) hpend]
                exact hpend
              · exact hp' t' h1 i' hi'
        · -- launch
          rename_i hpend
          have hpf : (σ i).p = false := by simpa using hpend
          obtain ⟨hrc0, hfl0, hkc0⟩ := (hInv i).2 hpf
          have hInvL : SchedInv (upd σ i { σ i with p := true, src := some src }) :=
            schedInv_upd hInv (hInv i).1 (fun hpc => by cases hpc)
          split at h
          · cases h
          · rename_i σ₂ hrt
            split at h
            · cases h
            · rename_i r₃ σ₃ hph
              cases h
              obtain ⟨frR, invR, ckR, pR, srcR⟩ :=
                (schedBundle fuel).2.2.1 S W i _ σ₂ hInvL (by rw [upd_same])
                  (by rw [upd_same]; exact hrc0) (by rw [upd_same]; exact hfl0) hrt
              obtain ⟨outs, hr, ho, hp'⟩ := ih S W rest src σ₂ r₃ _ invR
                (fun t' ht' => hown t' (List.mem_cons_of_mem _ ht')) hph
              subst hr
              obtain ⟨frT, invT, ckT⟩ := (schedBundle fuel).2.1 S W rest src σ₂ _ _ invR hph
              refine ⟨.ok () :: outs, rfl, ?_, ?_⟩
              · intro o hmo
                rcases List.mem_cons.mp hmo with h1 | h1
                · exact h1
                · exact ho o h1
              · intro t' ht' i' hi'
                rcases List.mem_cons.mp ht' with h1 | h1
                · subst h1
                  rw [hi'] at howner
                  injection howner with hii
                  subst hii
                  rw [frameOK_stable frT (by simp) pR]
                  exact pR
                · exact hp' t' h1 i' hi'
      · rename_i howner
        exact absurd howner (hown t (List.mem_cons_self _ _))

/-! ### The claims about the scheduler -/

/-- C1: when updateTargets starts a task whose cachedKey is set and whose
key function is defined, the launched body first computes the key; if the
computed key equals the cachedKey (equality of the JSON.stringify images,
modelled as equality of the abstracted key values) it returns without
invoking run; otherwise it invokes run, and on run's successful
completion (a key function being defined) it recomputes the key and
stores it as the task's new cachedKey. -/
theorem claim_C1_cacheCheck :
    ∀ (S : Sys) (W : World) (fuel : Nat) (i : Nat) (σ : St) (ck k : Nat) (σ₁ : St),
      SchedInv σ → (σ i).p = true → (σ i).rc = 0 → (σ i).failed = false →
      (σ i).ck = some ck → (S.decl i).hasKey = true →
      keyFn S W fuel i σ = some (.ok k, σ₁) →
      (k = ck → runTask S W (fuel + 1) i σ = some σ₁ ∧ (σ₁ i).rc = (σ i).rc) ∧
      (k ≠ ck → runTask S W (fuel + 1) i σ = doRun S W fuel i σ₁ ∧
        ∀ σ₂, doRun S W fuel i σ₁ = some σ₂ →
          (σ₂ i).rc = (σ i).rc + 1 ∧
          ((σ₂ i).failed = false → (σ₂ i).ck = some (W.keyPost i))) := by
  intro S W fuel i σ ck k σ₁ hInv hp hrc hfl hck hhk hkf
  obtain ⟨frK, invK, ckK, pK, srcK, ckSelfK, rcK, flK, kcK, valK⟩ :=
    (schedBundle fuel).2.2.2.2 S W i σ _ σ₁ hInv hp hkf
  constructor
  · intro hEq
    constructor
    · simp only [runTask, hck, hhk, hkf]
      rw [if_pos hEq]
    · exact rcK
  · intro hNe
    constructor
    · simp only [runTask, hck, hhk, hkf]
      rw [if_neg hNe]
    · intro σ₂ hd
      obtain ⟨frD, invD, ckD, pD, srcD, rcD, fD⟩ :=
        (schedBundle fuel).2.2.2.1 S W i σ₁ σ₂ invK (by rw [pK]; exact hp)
          (by rw [rcK]; exact hrc) (by rw [flK]; exact hfl) hd
      refine ⟨by rw [rcD, rcK], fun hff => (fD hff).1 hhk⟩

/-- C2: within one updateTargets wave starting from states satisfying the
invariant, every task's run is invoked at most once, and a task whose
pending field is already set is left completely untouched (later
requesters await the same settled future instead of starting the task
again); the invariant is preserved. -/
theorem claim_C2_atMostOnce :
    ∀ (S : Sys) (W : World) (fuel : Nat) (targets : List String) (src : String)
      (σ : St) (r : Except Err Unit) (σ' : St),
      SchedInv σ → updateTargets S W fuel targets src σ = some (r, σ') →
      (∀ i, (σ' i).rc ≤ 1) ∧
      (∀ i, (σ i).p = true → σ' i = σ i) ∧ SchedInv σ' := by
  intro S W fuel ts src σ r σ' hInv h
  obtain ⟨fr, inv', _⟩ := (schedBundle fuel).1 S W ts src σ r σ' hInv h
  exact ⟨fun i => (inv' i).1, fun i hp => frameOK_stable fr (by simp) hp, inv'⟩

/-- C3 (amended): a task that fails during an update keeps exactly the
cachedKey it had after the cache file was loaded at the start of that
update; in particular the cache file written at the end still contains
the stale prior entry for the task's targets when one was loaded, and
contains no entry for them only when no prior entry existed. -/
theorem claim_C3_failedKeepsLoadedKey :
    ∀ (S : Sys) (W : World) (fuel : Nat) (entries : List (String × Nat))
      (targets : List String) (σ : St) (r : Except Err Unit)
      (out : List (String × Nat)) (σ' : St) (i : Nat),
      SchedInv σ →
      update S W fuel entries targets σ = some (r, out, σ') →
      (σ i).failed = false → (σ' i).failed = true →
      (σ' i).ck = ((loadCache S entries (clearCache S σ)) i).ck ∧
      ((∀ e ∈ entries, S.owner e.1 ≠ some i) →
        ∀ t v, (t, v) ∈ out → S.owner t ≠ some i) := by
  intro S W fuel entries ts σ r out σ' i hInv h hf0 hf1
  obtain ⟨hu, hout⟩ := update_eq h
  have hckOnly : ckOnly σ (loadCache S entries (clearCache S σ)) :=
    ckOnly_trans (ckOnly_clearCache S σ) (ckOnly_loadCache S entries _)
  have hInvL : SchedInv (loadCache S entries (clearCache S σ)) :=
    schedInv_of_ckOnly hckOnly hInv
  obtain ⟨frU, invU, ckU⟩ := (schedBundle fuel).1 S W _ _ _ _ _ hInvL hu
  have hkey : (σ' i).ck = ((loadCache S entries (clearCache S σ)) i).ck :=
    ckU.2 i (by rw [(hckOnly i).2.2.1]; exact hf0) hf1
  refine ⟨hkey, fun hno t v hm hOwn => ?_⟩
  rw [hout] at hm
  obtain ⟨htl, i', hOwn', hck'⟩ := storeCache_mem hm
  rw [hOwn] at hOwn'
  injection hOwn' with hii
  subst hii
  rw [hkey, loadCache_skip_ck S entries _ hno, clearCache_ck_none _ htl hOwn] at hck'
  cases hck'

/-- C4: when every requested target is owned by a task, updateTargets
settles the entire wave (every requested target's task ends pending,
its body complete, regardless of failures elsewhere in the wave), no
future rejects, and only after the wave settles is the requested list
walked a second time: the call succeeds exactly when no requested
target's task failed, and any raised error is BuildError
"for lack of T" for a requested target T whose owning task failed. -/
theorem claim_C4_twoPhaseSettle :
    ∀ (S : Sys) (W : World) (fuel : Nat) (ts : List String) (src : String)
      (σ : St) (r : Except Err Unit) (σ' : St),
      SchedInv σ → (∀ t ∈ ts, S.owner t ≠ none) →
      updateTargets S W fuel ts src σ = some (r, σ') →
      (∀ t ∈ ts, ∀ i, S.owner t = some i → (σ' i).p = true) ∧
      (r = .ok () ↔ ∀ t ∈ ts, ∀ i, S.owner t = some i → (σ' i).failed = false) ∧
      (∀ e, r = .error e → ∃ t, t ∈ ts ∧ e = .lackOf t ∧
        ∃ i, S.owner t = some i ∧ (σ' i).failed = true) := by
  intro S W fuel ts src σ r σ' hInv hown h
  cases fuel with
  | zero => simp [updateTargets] at h
  | succ fuel =>
    simp only [updateTargets] at h
    split at h
    · cases h
    · rename_i e σ₁ hph
      obtain ⟨outs, hr, _, _⟩ := phase1_allOwned fuel S W ts src σ _ σ₁ hInv hown hph
      cases hr
    · rename_i outs σ₁ hph
      obtain ⟨outs', hr, ho, hp'⟩ := phase1_allOwned fuel S W ts src σ _ σ₁ hInv hown hph
      injection hr with hr2
      subst hr2
      split at h
      · rename_i e hpa
        rw [promiseAll_ok ho] at hpa
        cases hpa
      · cases h
        refine ⟨hp', ?_, ?_⟩
        · constructor
          · intro hok
            exact walk2_ok_iff.mp hok
          · intro hall
            exact walk2_ok_iff.mpr hall
        · intro e he
          exact walk2_error he

/-- C5: a task installed by RULE has a key function iff none of its
declared targets is abstract; and whenever a task has no key function
(as for any RULE task owning an abstract target) and the loaded cache
file has no entry for its targets (as for every cache file the engine
itself wrote), the cache file written at the end of an update again has
no entry for any of its targets: the engine never writes a cachedKey for
such a task. -/
theorem claim_C5_abstractNeverCached :
    (∀ targets prerequisites, (mkRULE targets prerequisites).hasKey = true ↔
      ∀ t ∈ targets, isAbstract t = false) ∧
    (∀ (S : Sys) (W : World) (fuel : Nat) (entries : List (String × Nat))
      (targets : List String) (σ : St) (r : Except Err Unit)
      (out : List (String × Nat)) (σ' : St) (i : Nat),
      SchedInv σ → (S.decl i).hasKey = false →
      (∀ e ∈ entries, S.owner e.1 ≠ some i) →
      update S W fuel entries targets σ = some (r, out, σ') →
      ∀ t v, (t, v) ∈ out → S.owner t ≠ some i) := by
  constructor
  · intro ts ps
    simp [mkRULE, ruleHasKey, List.any_eq_true]
  · intro S W fuel entries ts σ r out σ' i hInv hkf hno h t v hm hOwn
    obtain ⟨hu, hout⟩ := update_eq h
    have hckOnly : ckOnly σ (loadCache S entries (clearCache S σ)) :=
      ckOnly_trans (ckOnly_clearCache S σ) (ckOnly_loadCache S entries _)
    have hInvL : SchedInv (loadCache S entries (clearCache S σ)) :=
      schedInv_of_ckOnly hckOnly hInv
    obtain ⟨frU, invU, ckU⟩ := (schedBundle fuel).1 S W _ _ _ _ _ hInvL hu
    rw [hout] at hm
    obtain ⟨htl, i', hOwn', hck'⟩ := storeCache_mem hm
    rw [hOwn] at hOwn'
    injection hOwn' with hii
    subst hii
    rw [ckU.1 i hkf, loadCache_skip_ck S entries _ hno,
      clearCache_ck_none _ htl hOwn] at hck'
    cases hck'

/-- C10: a task's pending field, once set during an update, is never
cleared: a later update on the same registry (with the filesystem, the
key values and the command outcomes free to change arbitrarily) leaves
every settled task's pending, failed, src and invocation counters
untouched, so its run and keyFn are not invoked again and the task is
not re-checked; over the whole process, run executes at most once per
task. -/
theorem claim_C10_pendingPersists :
    ∀ (S : Sys) (W₁ W₂ : World) (fuel₁ fuel₂ : Nat)
      (entries₁ entries₂ : List (String × Nat)) (targets₁ targets₂ : List String)
      (σ : St) (r₁ : Except Err Unit) (out₁ : List (String × Nat)) (σ₁ : St)
      (r₂ : Except Err Unit) (out₂ : List (String × Nat)) (σ₂ : St),
      SchedInv σ →
      update S W₁ fuel₁ entries₁ targets₁ σ = some (r₁, out₁, σ₁) →
      update S W₂ fuel₂ entries₂ targets₂ σ₁ = some (r₂, out₂, σ₂) →
      (∀ i, (σ₁ i).p = true →
        (σ₂ i).p = true ∧ (σ₂ i).rc = (σ₁ i).rc ∧ (σ₂ i).kc = (σ₁ i).kc ∧
        (σ₂ i).failed = (σ₁ i).failed ∧ (σ₂ i).src = (σ₁ i).src) ∧
      (∀ i, (σ₂ i).rc ≤ 1) := by
  intro S W₁ W₂ f₁ f₂ e₁ e₂ t₁ t₂ σ r₁ o₁ σ₁ r₂ o₂ σ₂ hInv h1 h2
  obtain ⟨hInv1, hstab1⟩ := update_stability hInv h1
  obtain ⟨hInv2, hstab2⟩ := update_stability hInv1 h2
  exact ⟨hstab2, fun i => (hInv2 i).1⟩

/-! ### Concrete witnesses -/

def exσ1 : St := fun i => if i = 0 then ⟨true, some "user", false, some 11, 0, 0⟩ else initT

theorem exσ1_inv : SchedInv exσ1 := by
  intro j
  by_cases hj : j = 0
  · subst hj
    exact ⟨by decide, fun hc => by cases hc⟩
  · simp only [exσ1, if_neg hj]
    exact ⟨Nat.zero_le _, fun _ => ⟨rfl, rfl, rfl⟩⟩

theorem claim_C1_cacheCheck_witness :
    ∃ σ₁, keyFn Sc Wc2 20 0 exσ1 = some (.ok 11, σ₁) ∧
      runTask Sc Wc2 21 0 exσ1 = some σ₁ ∧ (σ₁ 0).rc = (exσ1 0).rc := by
  refine ⟨_, rfl, ?_⟩
  exact (claim_C1_cacheCheck Sc Wc2 20 0 exσ1 11 11 _ exσ1_inv (by decide) (by decide)
    (by decide) (by decide) (by decide) rfl).1 rfl

theorem claim_C2_atMostOnce_witness :
    ∃ r σ', updateTargets Sc Wc 30 ["a"] "user" (fun _ => initT) = some (r, σ') ∧
      (σ' 0).rc ≤ 1 ∧ (σ' 1).rc ≤ 1 := by
  refine ⟨_, _, rfl, ?_, ?_⟩
  · exact (claim_C2_atMostOnce Sc Wc 30 ["a"] "user" _ _ _ schedInv_init rfl).1 0
  · exact (claim_C2_atMostOnce Sc Wc 30 ["a"] "user" _ _ _ schedInv_init rfl).1 1

/-- C3 counterexample: a concrete update in which the task owning target
a is reached, its run raises a BuildError (the task ends marked failed
with run invoked once), and yet the cache file written at the end still
contains the entry for a that was loaded at the start: the previously
loaded cachedKey is not dropped. -/
theorem claim_C3_counterexample :
    (update Sc Wc3 30 [("a", 5)] ["a"] (fun _ => initT)).map
      (fun x => ((x.2.2 0).failed, (x.2.2 0).rc, x.2.1)) =
      some (true, 1, [("a", 5), ("b", 11)]) ∧
    Sc.owner "a" = some 0 := by
  constructor
  · decide
  · decide

theorem claim_C3_failedKeepsLoadedKey_witness :
    ∃ r out σ', update Sc Wc3 30 [] ["a"] (fun _ => initT) = some (r, out, σ') ∧
      (σ' 0).failed = true ∧ ∀ t v, (t, v) ∈ out → Sc.owner t ≠ some 0 := by
  refine ⟨_, _, _, rfl, by decide, ?_⟩
  exact (claim_C3_failedKeepsLoadedKey Sc Wc3 30 [] ["a"] _ _ _ _ 0 schedInv_init rfl
    (by decide) (by decide)).2 (by simp)

theorem claim_C4_twoPhaseSettle_witness :
    ∃ r σ', updateTargets Sc Wc3 30 ["a"] "user" (fun _ => initT) = some (r, σ') ∧
      (∀ t ∈ ["a"], ∀ i, Sc.owner t = some i → (σ' i).p = true) := by
  refine ⟨_, _, rfl, ?_⟩
  exact (claim_C4_twoPhaseSettle Sc Wc3 30 ["a"] "user" _ _ _ schedInv_init
    (by decide) rfl).1

def exS5 : Sys :=
  { owner := fun t => if t = ":test" then some 0 else if t = "f" then some 0 else none,
    decl := fun _ => mkRULE [":test", "f"] [],
    targetList := [":test", "f"] }

def exW5 : World :=
  { fsReadable := fun _ => false, runFails := fun _ => false,
    keyPre := fun _ => 0, keyPost := fun _ => 0 }

theorem claim_C5_abstractNeverCached_witness :
    (mkRULE [":test", "f"] []).hasKey = false ∧
    ∃ r out σ', update exS5 exW5 30 [] [":test"] (fun _ => initT) = some (r, out, σ') ∧
      ∀ t v, (t, v) ∈ out → exS5.owner t ≠ some 0 := by
  refine ⟨by decide, _, _, _, rfl, ?_⟩
  exact claim_C5_abstractNeverCached.2 exS5 exW5 30 [] [":test"] _ _ _ _ 0 schedInv_init
    (by decide) (by simp) rfl

theorem claim_C10_pendingPersists_witness :
    ∃ r₁ o₁ σ₁ r₂ o₂ σ₂,
      update Sc Wc2 30 [] ["a"] (fun _ => initT) = some (r₁, o₁, σ₁) ∧
      update Sc Wc2 30 [] ["a"] σ₁ = some (r₂, o₂, σ₂) ∧
      (σ₁ 0).p = true ∧ (σ₂ 0).rc = (σ₁ 0).rc ∧ (σ₂ 0).rc ≤ 1 := by
  refine ⟨_, _, _, _, _, _, rfl, rfl, by decide, ?_, ?_⟩
  · exact ((claim_C10_pendingPersists Sc Wc2 Wc2 30 30 [] [] ["a"] ["a"] _ _ _ _ _ _ _
      schedInv_init rfl rfl).1 0 (by decide)).2.1
  · exact (claim_C10_pendingPersists Sc Wc2 Wc2 30 30 [] [] ["a"] ["a"] _ _ _ _ _ _ _
      schedInv_init rfl rfl).2 0
